import Mathlib

/-!
# gif-text: caption segmentation, frame aggregation and GIF assembly

A shallow embedding of `gif-text/main.go`.

Modelling conventions.

* A Go `string` is modelled by the list of its Unicode code points (`Str`); the
  development therefore speaks about well-formed UTF-8 strings.
* The Unicode table `unicode.So` (category "Other Symbol"), which the regular
  expression class `\p{So}` consults, is not part of the repository.  It is
  taken as a parameter `So : Char → Bool`.  The only fact about it that the
  proofs use is `SoNotSpace`: no Other-Symbol character is white space.
* Library collaborators (image decoding, drawing, GIF serialisation, icon
  loading) are parameters collected in structures.
* A run-time panic, a `log.Fatalf` exit and a blocked channel receive are
  results of type `Except String`.
-/

namespace GifText

/-- A Go string, as the list of its code points. -/
abbrev Str := List Char

/-! ## Library functions on strings -/

/-- Go `unicode.IsSpace`: the Latin-1 white-space characters and the
characters with the Unicode `White_Space` property. -/
def isSpace (c : Char) : Bool :=
  let n := c.toNat
  n == 0x09 || n == 0x0A || n == 0x0B || n == 0x0C || n == 0x0D || n == 0x20 ||
  n == 0x85 || n == 0xA0 || n == 0x1680 || (0x2000 ≤ n && n ≤ 0x200A) ||
  n == 0x2028 || n == 0x2029 || n == 0x202F || n == 0x205F || n == 0x3000

/-- Go `strings.TrimSpace`: the string without its leading and trailing white space. -/
def TrimSpace (s : Str) : Str :=
  ((s.dropWhile isSpace).reverse.dropWhile isSpace).reverse

/-- Go `strings.Index`: the position of the first occurrence of `sep` in `s`,
or `none` (Go returns `-1`). -/
def Index : Str → Str → Option Nat
  | [], sep => if sep.isPrefixOf [] then some 0 else none
  | c :: s, sep =>
    if sep.isPrefixOf (c :: s) then some 0 else (Index s sep).map (· + 1)

/-- The loop of Go `strings.genSplit` (with `sepSave = 0`): cut `s` at the
successive non-overlapping occurrences of `sep`; `n` bounds the number of cuts. -/
def splitLoop (sep : Str) : Nat → Str → List Str
  | 0, s => [s]
  | n + 1, s =>
    match Index s sep with
    | none => [s]
    | some m => s.take m :: splitLoop sep n (s.drop (m + sep.length))

/-- Go `strings.explode`: one string per code point. -/
def explode (s : Str) : List Str := s.map (fun c => [c])

/-- Go `strings.Split(s, sep)`.  Go bounds the loop by `Count(s, sep)`, which is at
most `len(s)`; the loop stops by itself at the first failed `Index`, so `len(s)`
is used as the bound. -/
def Split (s sep : Str) : List Str :=
  if sep = [] then explode s else splitLoop sep s.length s

/-- The scan behind `FindAllString` for the pattern `[\p{So}]+`: `cur` is the
(reversed) run of Other-Symbol characters being read. -/
def soRuns (So : Char → Bool) : Str → Str → List Str
  | cur, [] => if cur = [] then [] else [cur.reverse]
  | cur, c :: s =>
    if So c then soRuns So (c :: cur) s
    else if cur = [] then soRuns So [] s
    else cur.reverse :: soRuns So [] s

/-- Go `regexp.MustCompile("[\p{So}]+").FindAllString(text, -1)`: the maximal
runs of Other-Symbol characters, in order of occurrence. -/
def FindAllString (So : Char → Bool) (text : Str) : List Str :=
  soRuns So [] text

/-! ## `FormatText` -/

/-- The innermost loop of `FormatText` (`for i, p := range split`): trim each
piece, drop it when empty, and re-attach `emoji` to every piece but the last. -/
def appendPieces (emoji : Str) (split : List Str) (newParts : List Str) : List Str :=
  split.enum.foldl
    (fun newParts ip =>
      let trimmedText := TrimSpace ip.2
      if trimmedText ≠ [] then
        if ip.1 < split.length - 1 then newParts ++ [trimmedText ++ emoji]
        else newParts ++ [trimmedText]
      else newParts)
    newParts

/-- The middle loop of `FormatText` (`for _, part := range parts`), starting
from `var newParts []string`. -/
def splitParts (emoji : Str) (parts : List Str) : List Str :=
  parts.foldl (fun newParts part => appendPieces emoji (Split part emoji) newParts) []

/-- The outer loop of `FormatText` (`for _, emoji := range emojis`). -/
def foldEmojis (emojis : List Str) (parts : List Str) : List Str :=
  emojis.foldl (fun parts emoji => splitParts emoji parts) parts

/-- Go `FormatText`. -/
def FormatText (So : Char → Bool) (text : Str) : List Str :=
  let emojis := FindAllString So text
  foldEmojis emojis [text]

/-- No Other-Symbol character is white space (the Unicode categories `So` and
`Z`/`Cc` are disjoint). -/
def SoNotSpace (So : Char → Bool) : Prop :=
  ∀ c, So c = true → isSpace c = false


/-! ## `addTextAndEmoji` -/

/-- The Perl class `\s` of Go `regexp`: `[\t\n\f\r ]`. -/
def isReSpace (c : Char) : Bool :=
  let n := c.toNat
  n == 0x09 || n == 0x0A || n == 0x0C || n == 0x0D || n == 0x20

/-- The end `([\p{So}]+)\s*` of the pattern at the start of `s`: the greedy run
of Other-Symbol characters (capture 2) and what is left after the white space. -/
def matchGlyph (So : Char → Bool) (s : Str) : Option (Str × Str) :=
  if s.takeWhile So = [] then none
  else some (s.takeWhile So, (s.dropWhile So).dropWhile isReSpace)

/-- The part `\s*([\p{So}]+)\s*` of the pattern at the start of `s`: the first
`\s*` is greedy and gives white space back when the rest fails. -/
def matchTail (So : Char → Bool) : Str → Option (Str × Str)
  | [] => matchGlyph So []
  | c :: s =>
    if isReSpace c then
      match matchTail So s with
      | some m => some m
      | none => matchGlyph So (c :: s)
    else matchGlyph So (c :: s)

/-- The whole pattern at the start of the string: the lazy `(.*?)` (capture 1,
read so far in `acc`, reversed) takes one more character, never a newline, only
when the rest of the pattern fails.  The result is capture 1, capture 2 and the
unread rest. -/
def matchHere (So : Char → Bool) : Str → Str → Option (Str × Str × Str)
  | _, [] => none
  | acc, c :: s =>
    match matchTail So (c :: s) with
    | some m => some (acc.reverse, m.1, m.2)
    | none => if c.toNat == 0x0A then none else matchHere So (c :: acc) s

/-- Go `regexp.MustCompile("(.*?)\s*([\p{So}]+)\s*").FindStringSubmatch(text)`:
the captures `match[1]` and `match[2]` of the leftmost match, `none` when
nothing matches (Go returns `nil`). -/
def FindStringSubmatch (So : Char → Bool) : Str → Option (Str × Str)
  | [] => none
  | c :: s =>
    match matchHere So [] (c :: s) with
    | some m => some (m.1, m.2.1)
    | none => FindStringSubmatch So s

/-- The map `emojiMap` of `addTextAndEmoji`. -/
def emojiMap (emoji : Str) : Option String :=
  if emoji = ['✅'] then some "verifica.png"
  else if emoji = ['❌'] then some "fechar.png"
  else none

/-- The drawing library behind `addTextAndEmoji`: `LoadImage` is
`gg.LoadImage` (`none` for an error), `compose` is the drawing of the source
image, the text and the icon on a new canvas. -/
structure Gfx (Img : Type) where
  LoadImage : String → Option Img
  compose : Img → Str → Img → Img

/-- Go `addTextAndEmoji`.  `Except.error` is the exit through `log.Fatalf`. -/
def addTextAndEmoji {Img : Type} (So : Char → Bool) (G : Gfx Img) (im : Img) (text : Str) :
    Except String Img :=
  match FindStringSubmatch So text with
  | none => .error ("Formato de texto inválido: " ++ String.mk text)
  | some m =>
    let textPart := TrimSpace m.1
    let emojiPart := TrimSpace m.2
    match emojiMap emojiPart with
    | none => .error ("Icon not found for emoji: " ++ String.mk emojiPart)
    | some iconPath =>
      match G.LoadImage iconPath with
      | none => .error ("Error loading icon for emoji " ++ String.mk emojiPart)
      | some icon => .ok (G.compose im textPart icon)

/-! ## `GIFGenerator` -/

/-- A Go byte slice: its elements and the spare capacity behind them. -/
structure ByteSlice where
  data : List Nat
  spare : Nat

/-- Go `cap(b)`. -/
def ByteSlice.cap (b : ByteSlice) : Nat := b.data.length + b.spare

/-- Go `FrameGenerated`; a nil `*image.Paletted` is `none`. -/
structure FrameGenerated (Pal : Type) where
  PalettedImage : Option Pal
  IndexFrame : Nat
  deriving DecidableEq

/-- Go `gif.GIF`, the fields that `EncodeAll` sets. -/
structure GIF (Pal : Type) where
  Image : List (Option Pal)
  Delay : List Int

/-- Go `GIFGenerator`. -/
structure GIFGenerator (Pal : Type) where
  Delay : Int
  Frames : List (Option Pal)

/-- The image libraries: `decode` is `image.Decode` (`none` for an error),
`newPaletted` is `image.NewPaletted(img.Bounds(), palette.Plan9)`, `drawOver` and
`drawSrc` are `draw.Draw` with the operators `draw.Over` and `draw.Src`, `resize`
is `resize.Resize` with the Lanczos3 filter.  `gifEncode` is what `gif.EncodeAll`
does once it has read the first frame: it appends to the buffer and returns an
error or nil, or it panics (`Except.error`). -/
structure Lib (Img Pal : Type) where
  decode : List Nat → Option Img
  newPaletted : Img → Pal
  drawOver : Pal → Img → Pal
  resize : Nat → Nat → Img → Img
  drawSrc : Pal → Img → Img → Pal
  gifEncode : List Nat → GIF Pal → Except String (Option String × List Nat)

/-- A Go `int` (64 bits): the value of an integer expression after wrap-around. -/
def wrapInt (x : Int) : Int := (x + 2 ^ 63) % 2 ^ 64 - 2 ^ 63

/-- Go `GIFGenerator.Process`. -/
def Process {Img Pal : Type} (L : Lib Img Pal) (img : Img) : Pal :=
  let palettedImg := L.newPaletted img
  L.drawOver palettedImg img

/-- Go `GIFGenerator.generateFrame`: the value sent on the channel, or
`Except.error` when the goroutine panics.  The slice expression `imgByte[:10]`
panics when the capacity of `imgByte` is below 10.  The frame that is sent is
`palettedImage`, allocated with the bounds of the source image; the resized
image is only drawn into it. -/
def generateFrame {Img Pal : Type} (L : Lib Img Pal) (imgByte : ByteSlice) (index : Nat) :
    Except String (FrameGenerated Pal) :=
  match L.decode imgByte.data with
  | none =>
    if 10 ≤ imgByte.cap then .ok { PalettedImage := none, IndexFrame := index }
    else .error "panic: runtime error: slice bounds out of range"
  | some img =>
    let palettedImage := Process L img
    let resizedImg := L.resize 300 300 img
    .ok { PalettedImage := some (L.drawSrc palettedImage img resizedImg), IndexFrame := index }

/-- Go `gif.EncodeAll(buf, g)` for a document with as many delays as frames: it
first reads the bounds of `g.Image[0]`, which is a nil pointer dereference when
that frame is nil; the rest is the library's.  The result is the error (or nil)
and the buffer afterwards, or `Except.error` for a panic. -/
def gifEncodeAll {Img Pal : Type} (L : Lib Img Pal) (buf : List Nat) (g : GIF Pal) :
    Except String (Option String × List Nat) :=
  match g.Image with
  | none :: _ => .error "panic: runtime error: invalid memory address or nil pointer dereference"
  | _ => L.gifEncode buf g

/-- Go `GIFGenerator.EncodeAll`: the returned pair `([]byte, error)` and the
contents of `buf` afterwards, or `Except.error` when `gif.EncodeAll` panics. -/
def EncodeAll {Img Pal : Type} (L : Lib Img Pal) (buf : List Nat)
    (frames : List (Option Pal)) (delay : Int) :
    Except String (Except String (List Nat) × List Nat) :=
  if frames.length = 0 then .ok (.error "no frames to encode", buf)
  else
    let gifStruct : GIF Pal :=
      { Image := frames, Delay := (List.replicate frames.length (0 : Int)).map (fun _ => delay) }
    match gifEncodeAll L buf gifStruct with
    | .error e => .error e
    | .ok (some err, buf1) => .ok (.error err, buf1)
    | .ok (none, buf1) => .ok (.ok buf1, buf1)

/-- The body of the receive loop of `GenerateGif`: a present raster is stored
at the index it carries (out of range, the store panics). -/
def storeFrame {Pal : Type} (frames : List (Option Pal)) (frame : FrameGenerated Pal) :
    Except String (List (Option Pal)) :=
  match frame.PalettedImage with
  | some img =>
    if frame.IndexFrame < frames.length then .ok (frames.set frame.IndexFrame (some img))
    else .error "panic: runtime error: index out of range"
  | none => .ok frames

/-- The receive loop of `GenerateGif` (`for range images`): `n` receives from
the channel, whose values arrive in the order `arrivals`; a receive on a channel
that stays empty never returns. -/
def collectFrames {Pal : Type} :
    Nat → List (FrameGenerated Pal) → List (Option Pal) → Except String (List (Option Pal))
  | 0, _, frames => .ok frames
  | _ + 1, [], _ => .error "fatal error: all goroutines are asleep - deadlock!"
  | n + 1, frame :: arrivals, frames =>
    match storeFrame frames frame with
    | .ok frames1 => collectFrames n arrivals frames1
    | .error e => .error e

/-- The goroutines started by `GenerateGif`, one for each image with its
index; a goroutine that panics stops the program. -/
def runWorkers {Img Pal : Type} (L : Lib Img Pal) :
    Nat → List ByteSlice → Except String (List (FrameGenerated Pal))
  | _, [] => .ok []
  | indexFrame, imgByte :: images =>
    match generateFrame L imgByte indexFrame with
    | .error e => .error e
    | .ok frame =>
      match runWorkers L (indexFrame + 1) images with
      | .error e => .error e
      | .ok frames => .ok (frame :: frames)

/-- The first half of `GenerateGif` (up to the end of the receive loop): the
slice `frames`.  `order` lists the goroutines in the order in which their values
arrive on the channel. -/
def frameArray {Img Pal : Type} (L : Lib Img Pal) (order : List Nat)
    (images : List ByteSlice) : Except String (List (Option Pal)) :=
  match runWorkers L 0 images with
  | .error e => .error e
  | .ok results =>
    let arrivals := order.filterMap (fun i => results[i]?)
    collectFrames images.length arrivals (List.replicate images.length none)

/-- The second half of `GenerateGif` (from `totalDelay` on): the returned pair
`([]byte, error)` and the generator afterwards, or `Except.error` for a panic. -/
def encodeFrames {Img Pal : Type} (L : Lib Img Pal) (g : GIFGenerator Pal) (delay : Int)
    (frames : List (Option Pal)) :
    Except String (Except String (List Nat) × GIFGenerator Pal) :=
  let totalDelay := wrapInt (delay * frames.length)
  match EncodeAll L [] frames totalDelay with
  | .error e => .error e
  | .ok (.error err, _) => .ok (.error err, g)
  | .ok (.ok gitBytes, _) => .ok (.ok gitBytes, { Delay := delay, Frames := frames })

/-- Go `GIFGenerator.GenerateGif`: the returned pair `([]byte, error)` and the
generator afterwards, or `Except.error` when the program stops. -/
def GenerateGif {Img Pal : Type} (L : Lib Img Pal) (order : List Nat) (g : GIFGenerator Pal)
    (images : List ByteSlice) (delay : Int) :
    Except String (Except String (List Nat) × GIFGenerator Pal) :=
  match frameArray L order images with
  | .error e => .error e
  | .ok frames => encodeFrames L g delay frames

/-- The entry of the frame slice for one image: the raster drawn by
`generateFrame` when the image decodes, nil when it does not. -/
def frameOf {Img Pal : Type} (L : Lib Img Pal) (imgByte : ByteSlice) : Option Pal :=
  (L.decode imgByte.data).map
    (fun img => L.drawSrc (Process L img) img (L.resize 300 300 img))

/-- A PNG file: one gray pixel (signature, `IHDR` 1x1 with 8-bit gray, `IDAT`, `IEND`). -/
def pngA : List Nat :=
  [137, 80, 78, 71, 13, 10, 26, 10, 0, 0, 0, 13, 73, 72, 68, 82, 0, 0, 0, 1, 0, 0, 0, 1,
   8, 0, 0, 0, 0, 58, 126, 155, 85, 0, 0, 0, 10, 73, 68, 65, 84, 120, 218, 99, 96, 0, 0,
   0, 2, 0, 1, 229, 39, 222, 252, 0, 0, 0, 0, 73, 69, 78, 68, 174, 66, 96, 130]

/-- A PNG file: two gray pixels in one row (`IHDR` 2x1 with 8-bit gray). -/
def pngB : List Nat :=
  [137, 80, 78, 71, 13, 10, 26, 10, 0, 0, 0, 13, 73, 72, 68, 82, 0, 0, 0, 2, 0, 0, 0, 1,
   8, 0, 0, 0, 0, 209, 73, 32, 86, 0, 0, 0, 11, 73, 68, 65, 84, 120, 218, 99, 96, 248, 15,
   0, 1, 2, 1, 0, 209, 26, 203, 143, 0, 0, 0, 0, 73, 69, 78, 68, 174, 66, 96, 130]

/-- The frame loop of `gif.EncodeAll` in the stand-in `pngLib`, on the bounds of
the frames: once an error is recorded the remaining frames are skipped; a nil
frame is a nil pointer dereference; a frame that does not fit into the logical
screen `cfg` records the error "gif: image block is out of bounds". -/
def writeBlocks (cfg : Nat × Nat) : List (Option (Nat × Nat)) → Option String →
    Except String (Option String)
  | [], err => .ok err
  | _ :: rest, some e => writeBlocks cfg rest (some e)
  | none :: _, none =>
    .error "panic: runtime error: invalid memory address or nil pointer dereference"
  | some b :: rest, none =>
    if b.1 ≤ cfg.1 ∧ b.2 ≤ cfg.2 then writeBlocks cfg rest none
    else writeBlocks cfg rest (some "gif: image block is out of bounds")

/-- A stand-in for the image libraries on the concrete inputs of this file.  An
image and a raster are represented by their bounds (width, height); a frame keeps
the bounds of its source image.  `decode` accepts the files `pngA` and `pngB` and
nothing else.  The encoder takes the logical screen from the first frame, runs
`writeBlocks`, and appends the number of frames and the delays in place of the
serialised document. -/
def pngLib : Lib (Nat × Nat) (Nat × Nat) where
  decode := fun b => if b = pngA then some (1, 1) else if b = pngB then some (2, 1) else none
  newPaletted := fun img => img
  drawOver := fun pal _ => pal
  resize := fun w h _ => (w, h)
  drawSrc := fun pal _ _ => pal
  gifEncode := fun buf doc =>
    match doc.Image with
    | [] => .ok (some "gif: must provide at least one image", buf)
    | none :: _ =>
      .error "panic: runtime error: invalid memory address or nil pointer dereference"
    | some cfg :: _ =>
      match writeBlocks cfg doc.Image none with
      | .error e => .error e
      | .ok err => .ok (err, buf ++ doc.Image.length :: doc.Delay.map Int.toNat)

/-! ## Auxiliary definitions used by the proofs -/

/-- The effect of the innermost loop of `FormatText` as a recursion on the
list of pieces: the last piece is kept bare, every other one gets `emoji`. -/
def pieces (emoji : Str) : List Str → List Str
  | [] => []
  | [p] => if TrimSpace p ≠ [] then [TrimSpace p] else []
  | p :: q :: rest =>
    (if TrimSpace p ≠ [] then [TrimSpace p ++ emoji] else []) ++ pieces emoji (q :: rest)

/-- The segments one part contributes in one round of the fold. -/
def splitPart (emoji : Str) (part : Str) : List Str :=
  pieces emoji (Split part emoji)

/-- A string neither starts nor ends with white space. -/
def NoEdgeSpace (x : Str) : Prop :=
  (∀ c, x.head? = some c → isSpace c = false) ∧
  (∀ c, x.getLast? = some c → isSpace c = false)

/-- A segment ends with an Other-Symbol character. -/
def EndsSo (So : Char → Bool) (seg : Str) : Prop :=
  ∃ c, seg.getLast? = some c ∧ So c = true

/-- The shape of a finished segment: trimmed, non-empty, and either free of
glyphs or glyph-free text followed by one run of the glyph list `E`. -/
def GoodPart (So : Char → Bool) (E : List Str) (P : Str) : Prop :=
  P ≠ [] ∧ NoEdgeSpace P ∧
    ((∀ c ∈ P, So c = false) ∨
      ∃ Q r, P = Q ++ r ∧ Q ≠ [] ∧ NoEdgeSpace Q ∧ (∀ c ∈ Q, So c = false) ∧ r ∈ E)

/-- The caption `text_1 ' ' glyph_1 ' ' text_2 ' ' glyph_2 ... text_n ' ' glyph_n`
built from the pairs `(text_i, glyph_i)`. -/
def caption (toks : List (Str × Char)) : Str :=
  List.intercalate [' '] (toks.flatMap fun p => [p.1, [p.2]])

/-- The segment of a token: its text immediately followed by its glyph. -/
def tokenString (p : Str × Char) : Str := p.1 ++ [p.2]

/-- A well-formed token: the text is non-empty, has no leading or trailing white
space and no Other-Symbol character; the glyph is an Other-Symbol character. -/
def ValidToken (So : Char → Bool) (p : Str × Char) : Prop :=
  p.1 ≠ [] ∧ NoEdgeSpace p.1 ∧ (∀ c ∈ p.1, So c = false) ∧ So p.2 = true

/-- Tokens that are not last in a part: each text is followed by `' ' glyph ' '`. -/
def raw (pre : List (Str × Char)) : Str :=
  pre.flatMap fun p => p.1 ++ [' ', p.2, ' ']

/-- A part made of consecutive tokens.  The glyph of the last token is attached
to its text when the part is `closed`, and separated by a blank otherwise. -/
def render (closed : Bool) : List (Str × Char) → Str
  | [] => []
  | [p] => p.1 ++ (if closed then [p.2] else [' ', p.2])
  | p :: q :: rest => p.1 ++ [' ', p.2, ' '] ++ render closed (q :: rest)

/-- The glyphs at which a part can still be cut: all of them, except the
attached glyph of a closed part. -/
def interior (closed : Bool) : List (Str × Char) → List Char
  | [] => []
  | [p] => if closed then [] else [p.2]
  | p :: q :: rest => p.2 :: interior closed (q :: rest)

/-- The rows of the table `unicode.So` for the blocks Miscellaneous Symbols and
Dingbats (U+2600..U+266E, U+2670..U+2767, U+2794..U+27BF); they hold the glyphs
of the icon map, U+2705 and U+274C.  Used for concrete inputs. -/
def isDingbatSymbol (c : Char) : Bool :=
  let n := c.toNat
  (0x2600 ≤ n && n ≤ 0x266E) || (0x2670 ≤ n && n ≤ 0x2767) || (0x2794 ≤ n && n ≤ 0x27BF)

/-! ## Lemmas: `TrimSpace` -/

theorem dropWhile_append_of_all {α : Type} (p : α → Bool) (l m : List α)
    (h : ∀ c ∈ l, p c = true) : (l ++ m).dropWhile p = m.dropWhile p := by
  induction l with
  | nil => rfl
  | cons a l ih =>
    have ha : p a = true := h a (List.mem_cons_self _ _)
    simp only [List.cons_append, List.dropWhile_cons, ha, if_true]
    exact ih (fun c hc => h c (List.mem_cons_of_mem _ hc))

theorem dropWhile_eq_nil_of_all {α : Type} (p : α → Bool) (l : List α)
    (h : ∀ c ∈ l, p c = true) : l.dropWhile p = [] := by
  have := dropWhile_append_of_all p l [] h
  simpa using this

theorem TrimSpace_nil : TrimSpace [] = [] := rfl

theorem TrimSpace_core (ws1 x ws2 : Str) (hx : NoEdgeSpace x)
    (h1 : ∀ c ∈ ws1, isSpace c = true) (h2 : ∀ c ∈ ws2, isSpace c = true) :
    TrimSpace (ws1 ++ x ++ ws2) = x := by
  unfold TrimSpace
  rw [List.append_assoc, dropWhile_append_of_all isSpace ws1 _ h1]
  rcases x with _ | ⟨a, x⟩
  · simp only [List.nil_append]
    rw [dropWhile_eq_nil_of_all isSpace ws2 h2]
    rfl
  · have ha : isSpace a = false := hx.1 a rfl
    have hd : ((a :: x) ++ ws2).dropWhile isSpace = (a :: x) ++ ws2 := by
      simp [List.dropWhile_cons, ha]
    rw [hd, List.reverse_append,
      dropWhile_append_of_all isSpace ws2.reverse _
        (fun c hc => h2 c (List.mem_reverse.mp hc))]
    have hne : (a :: x) ≠ [] := by simp
    obtain ⟨ini, b, hb⟩ : ∃ ini b, a :: x = ini ++ [b] :=
      ⟨(a :: x).dropLast, (a :: x).getLast hne, (List.dropLast_append_getLast hne).symm⟩
    have hbs : isSpace b = false := by
      apply hx.2 b
      rw [hb]; simp
    rw [hb]
    simp [List.dropWhile_cons, hbs]

theorem TrimSpace_of_noEdge (x : Str) (hx : NoEdgeSpace x) : TrimSpace x = x := by
  have := TrimSpace_core [] x [] hx (by simp) (by simp)
  simpa using this

theorem dropWhile_head {α : Type} (p : α → Bool) :
    ∀ (l : List α) (a : α) (t : List α), l.dropWhile p = a :: t → p a = false := by
  intro l
  induction l with
  | nil => intro a t h; simp at h
  | cons b l ih =>
    intro a t h
    by_cases hb : p b = true
    · simp only [List.dropWhile_cons, hb, if_true] at h
      exact ih a t h
    · simp only [List.dropWhile_cons, hb] at h
      simp at h
      rw [← h.1]
      simpa using hb

theorem TrimSpace_decomp (s : Str) :
    ∃ l r, s = l ++ TrimSpace s ++ r ∧ (∀ c ∈ l, isSpace c = true) ∧
      (∀ c ∈ r, isSpace c = true) := by
  refine ⟨s.takeWhile isSpace,
    (((s.dropWhile isSpace).reverse).takeWhile isSpace).reverse, ?_, ?_, ?_⟩
  · have h1 : s = s.takeWhile isSpace ++ s.dropWhile isSpace :=
      (List.takeWhile_append_dropWhile isSpace s).symm
    have h2 : (s.dropWhile isSpace).reverse =
        ((s.dropWhile isSpace).reverse).takeWhile isSpace ++
          ((s.dropWhile isSpace).reverse).dropWhile isSpace :=
      (List.takeWhile_append_dropWhile isSpace _).symm
    have h3 : s.dropWhile isSpace =
        (((s.dropWhile isSpace).reverse).dropWhile isSpace).reverse ++
          (((s.dropWhile isSpace).reverse).takeWhile isSpace).reverse := by
      have := congrArg List.reverse h2
      rw [List.reverse_reverse, List.reverse_append] at this
      exact this
    unfold TrimSpace
    rw [List.append_assoc, ← h3]
    exact h1
  · intro c hc
    exact List.mem_takeWhile_imp hc
  · intro c hc
    exact List.mem_takeWhile_imp (List.mem_reverse.mp hc)

theorem TrimSpace_noEdge (s : Str) : NoEdgeSpace (TrimSpace s) := by
  constructor
  · intro a ha
    rcases hT : TrimSpace s with _ | ⟨b, t⟩
    · rw [hT] at ha; simp at ha
    · rw [hT] at ha
      simp at ha
      subst ha
      unfold TrimSpace at hT
      have h3 := List.takeWhile_append_dropWhile isSpace (s.dropWhile isSpace).reverse
      have h4 := congrArg List.reverse h3
      rw [List.reverse_reverse, List.reverse_append, hT] at h4
      exact dropWhile_head isSpace s b _ h4.symm
  · intro b hb
    unfold TrimSpace at hb
    rw [List.getLast?_reverse] at hb
    rcases hv : ((s.dropWhile isSpace).reverse).dropWhile isSpace with _ | ⟨a, t⟩
    · rw [hv] at hb; simp at hb
    · rw [hv] at hb
      simp at hb
      subst hb
      exact dropWhile_head isSpace _ a t hv

theorem mem_of_mem_TrimSpace (s : Str) (c : Char) (h : c ∈ TrimSpace s) : c ∈ s := by
  obtain ⟨l, r, hs, -, -⟩ := TrimSpace_decomp s
  rw [hs]
  simp [h]

/-! ## Lemmas: `Index` and `Split` -/

theorem isPrefixOf_self_append (sep b : Str) : sep.isPrefixOf (sep ++ b) = true := by
  induction sep with
  | nil => simp [List.isPrefixOf]
  | cons c sep ih => simp [List.isPrefixOf, ih]

theorem Index_of_not_mem (c : Char) (sep s : Str) (h : c ∉ s) :
    Index s (c :: sep) = none := by
  induction s with
  | nil => simp [Index, List.isPrefixOf]
  | cons d s ih =>
    have hd : c ≠ d := fun e => h (by simp [e])
    have hs : c ∉ s := fun e => h (by simp [e])
    simp [Index, List.isPrefixOf, hd, ih hs]

theorem Index_first (c : Char) (sep a b : Str) (h : c ∉ a) :
    Index (a ++ (c :: sep) ++ b) (c :: sep) = some a.length := by
  induction a with
  | nil =>
    have := isPrefixOf_self_append (c :: sep) b
    simp only [List.nil_append, List.cons_append] at this ⊢
    simp [Index, this]
  | cons d a ih =>
    have hd : c ≠ d := fun e => h (by simp [e])
    have hs : c ∉ a := fun e => h (by simp [e])
    have := ih hs
    simp only [List.cons_append, List.append_assoc] at this ⊢
    simp [Index, List.isPrefixOf, hd, this]

theorem splitLoop_fuel (sep : Str) (hsep : sep ≠ []) :
    ∀ (n m : Nat) (s : Str), s.length ≤ n → s.length ≤ m →
      splitLoop sep n s = splitLoop sep m s := by
  have hnil : Index [] sep = none := by
    rcases sep with _ | ⟨c, sep⟩
    · exact absurd rfl hsep
    · simp [Index, List.isPrefixOf]
  have hlen : 0 < sep.length := List.length_pos.mpr hsep
  intro n
  induction n with
  | zero =>
    intro m s hn _
    have hs : s = [] := List.length_eq_zero.mp (Nat.le_zero.mp hn)
    subst hs
    cases m with
    | zero => rfl
    | succ m => simp [splitLoop, hnil]
  | succ n ih =>
    intro m s hn hm
    cases m with
    | zero =>
      have hs : s = [] := List.length_eq_zero.mp (Nat.le_zero.mp hm)
      subst hs
      simp [splitLoop, hnil]
    | succ m =>
      simp only [splitLoop]
      cases hI : Index s sep with
      | none => rfl
      | some k =>
        simp only
        rw [ih m (s.drop (k + sep.length))]
        · simp only [List.length_drop]; omega
        · simp only [List.length_drop]; omega

theorem Split_of_not_mem (c : Char) (sep s : Str) (h : c ∉ s) :
    Split s (c :: sep) = [s] := by
  unfold Split
  simp only [reduceCtorEq, if_false]
  cases hn : s.length with
  | zero => rfl
  | succ n => simp [splitLoop, Index_of_not_mem c sep s h]

theorem Split_append (c : Char) (sep a b : Str) (h : c ∉ a) :
    Split (a ++ (c :: sep) ++ b) (c :: sep) = a :: Split b (c :: sep) := by
  unfold Split
  simp only [reduceCtorEq, if_false]
  have hlen : (a ++ (c :: sep) ++ b).length = (a.length + sep.length + b.length) + 1 := by
    simp only [List.length_append, List.length_cons]; omega
  rw [hlen]
  simp only [splitLoop, Index_first c sep a b h]
  have h1 : (a ++ (c :: sep) ++ b).take a.length = a := by
    rw [List.append_assoc, List.take_left]
  have h2 : (a ++ (c :: sep) ++ b).drop (a.length + (c :: sep).length) = b := by
    have : a.length + (c :: sep).length = (a ++ (c :: sep)).length := by simp
    rw [this, List.drop_left]
  rw [h1, h2]
  congr 1
  exact splitLoop_fuel (c :: sep) (by simp) _ _ b (by omega) (le_refl _)

theorem splitLoop_ne_nil (sep : Str) (n : Nat) (s : Str) : splitLoop sep n s ≠ [] := by
  cases n with
  | zero => simp [splitLoop]
  | succ n =>
    simp only [splitLoop]
    cases Index s sep <;> simp

theorem Split_ne_nil (s sep : Str) (hsep : sep ≠ []) : Split s sep ≠ [] := by
  unfold Split
  simp only [hsep, if_false]
  exact splitLoop_ne_nil sep _ s

theorem splitLoop_getLast_suffix (sep : Str) :
    ∀ (n : Nat) (s p : Str), (splitLoop sep n s).getLast? = some p → p <:+ s := by
  intro n
  induction n with
  | zero =>
    intro s p h
    simp [splitLoop] at h
    subst h
    exact List.suffix_refl _
  | succ n ih =>
    intro s p h
    simp only [splitLoop] at h
    cases hI : Index s sep with
    | none =>
      rw [hI] at h
      simp at h
      subst h
      exact List.suffix_refl _
    | some k =>
      rw [hI] at h
      simp only at h
      rcases hq : splitLoop sep n (s.drop (k + sep.length)) with _ | ⟨q, rest⟩
      · exact absurd hq (splitLoop_ne_nil sep n _)
      · rw [hq, List.getLast?_cons_cons, ← hq] at h
        exact (ih _ p h).trans (List.drop_suffix _ s)

theorem Split_getLast_suffix (s sep p : Str) (hsep : sep ≠ [])
    (h : (Split s sep).getLast? = some p) : p <:+ s := by
  unfold Split at h
  simp only [hsep, if_false] at h
  exact splitLoop_getLast_suffix sep _ s p h

/-! ## Lemmas: the loops of `FormatText` -/

theorem appendPieces_aux (emoji : Str) (L : Nat) :
    ∀ (l : List Str) (k : Nat) (newParts : List Str), k + l.length = L →
      (l.enumFrom k).foldl
        (fun newParts ip =>
          let trimmedText := TrimSpace ip.2
          if trimmedText ≠ [] then
            if ip.1 < L - 1 then newParts ++ [trimmedText ++ emoji]
            else newParts ++ [trimmedText]
          else newParts)
        newParts = newParts ++ pieces emoji l := by
  intro l
  induction l with
  | nil => intro k np _; simp [pieces]
  | cons p l ih =>
    intro k np hk
    simp only [List.enumFrom_cons, List.foldl_cons]
    rw [ih (k + 1) _ (by simp only [List.length_cons] at hk; omega)]
    cases l with
    | nil =>
      have hlt : ¬ k < L - 1 := by simp only [List.length_cons, List.length_nil] at hk; omega
      by_cases ht : TrimSpace p = []
      · simp [pieces, ht]
      · simp [pieces, ht, hlt]
    | cons q rest =>
      have hlt : k < L - 1 := by simp only [List.length_cons] at hk; omega
      by_cases ht : TrimSpace p = []
      · simp [pieces, ht]
      · simp [pieces, ht, hlt]

theorem appendPieces_eq (emoji : Str) (split newParts : List Str) :
    appendPieces emoji split newParts = newParts ++ pieces emoji split := by
  unfold appendPieces
  exact appendPieces_aux emoji split.length split 0 newParts (by simp)

theorem splitParts_foldl (emoji : Str) (parts acc : List Str) :
    parts.foldl (fun newParts part => appendPieces emoji (Split part emoji) newParts) acc
      = acc ++ parts.flatMap (splitPart emoji) := by
  induction parts generalizing acc with
  | nil => simp
  | cons p parts ih =>
    simp only [List.foldl_cons, List.flatMap_cons]
    rw [ih, appendPieces_eq, List.append_assoc]
    rfl

theorem splitParts_eq (emoji : Str) (parts : List Str) :
    splitParts emoji parts = parts.flatMap (splitPart emoji) := by
  unfold splitParts
  rw [splitParts_foldl]
  rfl

theorem splitParts_append (emoji : Str) (A B : List Str) :
    splitParts emoji (A ++ B) = splitParts emoji A ++ splitParts emoji B := by
  simp only [splitParts_eq, List.flatMap_append]

theorem splitParts_nil (emoji : Str) : splitParts emoji [] = [] := rfl

theorem splitParts_singleton (emoji : Str) (p : Str) :
    splitParts emoji [p] = splitPart emoji p := by
  simp [splitParts_eq]

theorem foldEmojis_nil (parts : List Str) : foldEmojis [] parts = parts := rfl

theorem foldEmojis_cons (e : Str) (E : List Str) (parts : List Str) :
    foldEmojis (e :: E) parts = foldEmojis E (splitParts e parts) := rfl

theorem foldEmojis_append (E : List Str) :
    ∀ A B : List Str, foldEmojis E (A ++ B) = foldEmojis E A ++ foldEmojis E B := by
  induction E with
  | nil => intro A B; rfl
  | cons e E ih =>
    intro A B
    simp only [foldEmojis_cons, splitParts_append, ih]

theorem foldEmojis_empty (E : List Str) : foldEmojis E [] = [] := by
  induction E with
  | nil => rfl
  | cons e E ih => simp only [foldEmojis_cons, splitParts_nil, ih]

theorem foldEmojis_cons_parts (E : List Str) (p : Str) (B : List Str) :
    foldEmojis E (p :: B) = foldEmojis E [p] ++ foldEmojis E B := by
  have := foldEmojis_append E [p] B
  simpa using this

/-- A part that every emoji of the list leaves alone survives the whole fold. -/
theorem foldEmojis_stable (E : List Str) (parts : List Str)
    (h : ∀ e ∈ E, splitParts e parts = parts) : foldEmojis E parts = parts := by
  induction E with
  | nil => rfl
  | cons e E ih =>
    rw [foldEmojis_cons, h e (List.mem_cons_self _ _)]
    exact ih (fun e he => h e (List.mem_cons_of_mem _ he))

/-- One piece without the separator: the part is trimmed and kept. -/
theorem splitPart_of_not_mem (c : Char) (sep s : Str) (h : c ∉ s) :
    splitPart (c :: sep) s = if TrimSpace s ≠ [] then [TrimSpace s] else [] := by
  unfold splitPart
  rw [Split_of_not_mem c sep s h]
  rfl

/-- Peeling the text before the first separator off a part. -/
theorem splitPart_append (c : Char) (sep a b : Str) (h : c ∉ a) :
    splitPart (c :: sep) (a ++ (c :: sep) ++ b) =
      (if TrimSpace a ≠ [] then [TrimSpace a ++ (c :: sep)] else []) ++
        splitPart (c :: sep) b := by
  unfold splitPart
  rw [Split_append c sep a b h]
  rcases hq : Split b (c :: sep) with _ | ⟨q, rest⟩
  · exact absurd hq (Split_ne_nil b (c :: sep) (by simp))
  · rfl

theorem splitPart_nil (c : Char) (sep : Str) : splitPart (c :: sep) [] = [] := by
  rw [splitPart_of_not_mem c sep [] (by simp)]
  simp [TrimSpace_nil]

/-! ## Lemmas: the extracted glyph runs -/

theorem soRuns_spec (So : Char → Bool) :
    ∀ (s cur : Str), (∀ c ∈ cur, So c = true) →
      ∀ e ∈ soRuns So cur s, e ≠ [] ∧ ∀ c ∈ e, So c = true := by
  intro s
  induction s with
  | nil =>
    intro cur hcur e he
    by_cases hc : cur = []
    · simp [soRuns, hc] at he
    · simp only [soRuns, hc, if_false, List.mem_singleton] at he
      subst he
      exact ⟨by simpa using hc, fun c hc => hcur c (List.mem_reverse.mp hc)⟩
  | cons d s ih =>
    intro cur hcur e he
    by_cases hd : So d = true
    · simp only [soRuns, hd, if_true] at he
      refine ih (d :: cur) ?_ e he
      intro c hc
      rcases List.mem_cons.mp hc with h | h
      · rw [h]; exact hd
      · exact hcur c h
    · by_cases hc : cur = []
      · simp only [soRuns, hd, hc] at he
        exact ih [] (by simp) e he
      · simp only [soRuns, hd, hc, if_false, List.mem_cons, Bool.false_eq_true] at he
        rcases he with h1 | h1
        · subst h1
          exact ⟨by simpa using hc, fun c hc => hcur c (List.mem_reverse.mp hc)⟩
        · exact ih [] (by simp) e h1

theorem FindAllString_spec (So : Char → Bool) (text e : Str)
    (he : e ∈ FindAllString So text) : e ≠ [] ∧ ∀ c ∈ e, So c = true :=
  soRuns_spec So text [] (by simp) e he

/-! ## Lemmas: segments end with a glyph -/

theorem EndsSo_append (So : Char → Bool) (a e : Str) (he : EndsSo So e) :
    EndsSo So (a ++ e) := by
  obtain ⟨c, hc, hs⟩ := he
  refine ⟨c, ?_, hs⟩
  have hne : e ≠ [] := by
    intro h; rw [h] at hc; simp at hc
  rw [List.getLast?_append_of_ne_nil _ hne]
  exact hc

theorem EndsSo_of_run (So : Char → Bool) (e : Str) (hne : e ≠ [])
    (hall : ∀ c ∈ e, So c = true) : EndsSo So e :=
  ⟨e.getLast hne, List.getLast?_eq_getLast _ hne, hall _ (List.getLast_mem hne)⟩

theorem mem_dropLast_append {α : Type} (A B : List α) (x : α)
    (h : x ∈ (A ++ B).dropLast) : x ∈ A ∨ x ∈ B.dropLast := by
  by_cases hB : B = []
  · subst hB
    rw [List.append_nil] at h
    exact Or.inl (List.mem_of_mem_dropLast h)
  · rw [List.dropLast_append_of_ne_nil _ hB] at h
    exact List.mem_append.mp h

theorem getLast?_TrimSpace (p : Str) (c : Char) (h : p.getLast? = some c)
    (hc : isSpace c = false) : (TrimSpace p).getLast? = some c := by
  obtain ⟨l, r, hp, hl, hr⟩ := TrimSpace_decomp p
  have hr0 : r = [] := by
    by_contra hne
    have h1 : p.getLast? = r.getLast? := by
      conv_lhs => rw [hp]
      exact List.getLast?_append_of_ne_nil _ hne
    rw [h1, List.getLast?_eq_getLast _ hne] at h
    simp at h
    have := hr _ (List.getLast_mem hne)
    rw [h, hc] at this
    exact absurd this (by simp)
  subst hr0
  rw [List.append_nil] at hp
  have hT : TrimSpace p ≠ [] := by
    intro hT
    rw [hT, List.append_nil] at hp
    have hpne : p ≠ [] := by
      intro h0; rw [h0] at h; simp at h
    have hlne : l ≠ [] := by rw [← hp]; exact hpne
    have h2 : l.getLast? = some c := by rw [← hp]; exact h
    rw [List.getLast?_eq_getLast _ hlne] at h2
    simp at h2
    have := hl _ (List.getLast_mem hlne)
    rw [h2, hc] at this
    exact absurd this (by simp)
  have h3 : p.getLast? = (TrimSpace p).getLast? := by
    conv_lhs => rw [hp]
    exact List.getLast?_append_of_ne_nil _ hT
  rw [← h3]
  exact h

theorem pieces_dropLast_EndsSo (So : Char → Bool) (e : Str) (he : EndsSo So e) :
    ∀ (sp : List Str), ∀ seg ∈ (pieces e sp).dropLast, EndsSo So seg := by
  intro sp
  induction sp with
  | nil => intro seg h; simp [pieces] at h
  | cons p sp ih =>
    cases sp with
    | nil =>
      intro seg h
      by_cases ht : TrimSpace p = []
      · simp [pieces, ht] at h
      · simp [pieces, ht] at h
    | cons q rest =>
      intro seg h
      simp only [pieces] at h
      rcases mem_dropLast_append _ _ seg h with h1 | h1
      · by_cases ht : TrimSpace p = []
        · simp [ht] at h1
        · simp only [ne_eq, ht, not_false_eq_true, if_true, List.mem_singleton] at h1
          subst h1
          exact EndsSo_append So _ e he
      · exact ih seg h1

theorem pieces_mem (So : Char → Bool) (e : Str) (he : EndsSo So e) :
    ∀ (sp : List Str), ∀ seg ∈ pieces e sp,
      EndsSo So seg ∨ ∃ p, sp.getLast? = some p ∧ seg = TrimSpace p ∧ TrimSpace p ≠ [] := by
  intro sp
  induction sp with
  | nil => intro seg h; simp [pieces] at h
  | cons p sp ih =>
    cases sp with
    | nil =>
      intro seg h
      by_cases ht : TrimSpace p = []
      · simp [pieces, ht] at h
      · simp only [pieces, ne_eq, ht, not_false_eq_true, if_true, List.mem_singleton] at h
        exact Or.inr ⟨p, rfl, h, ht⟩
    | cons q rest =>
      intro seg h
      simp only [pieces, List.mem_append] at h
      rcases h with h1 | h1
      · by_cases ht : TrimSpace p = []
        · simp [ht] at h1
        · simp only [ne_eq, ht, not_false_eq_true, if_true, List.mem_singleton] at h1
          subst h1
          exact Or.inl (EndsSo_append So _ e he)
      · rcases ih seg h1 with h2 | ⟨p2, hp2, hseg, hne⟩
        · exact Or.inl h2
        · exact Or.inr ⟨p2, by rw [List.getLast?_cons_cons]; exact hp2, hseg, hne⟩

theorem splitPart_EndsSo (So : Char → Bool) (hSo : SoNotSpace So) (e P : Str)
    (hne : e ≠ []) (he : EndsSo So e) (hP : EndsSo So P) :
    ∀ seg ∈ splitPart e P, EndsSo So seg := by
  intro seg hseg
  rcases pieces_mem So e he (Split P e) seg hseg with h | ⟨p, hp, hs, hT⟩
  · exact h
  · have hsuf : p <:+ P := Split_getLast_suffix P e p hne hp
    obtain ⟨c, hc, hcS⟩ := hP
    have hpne : p ≠ [] := by
      intro h0; rw [h0] at hT; exact hT TrimSpace_nil
    obtain ⟨t, ht⟩ := hsuf
    have hpl : p.getLast? = some c := by
      rw [← ht, List.getLast?_append_of_ne_nil _ hpne] at hc
      exact hc
    refine ⟨c, ?_, hcS⟩
    rw [hs]
    exact getLast?_TrimSpace p c hpl (hSo c hcS)

theorem splitParts_inv (So : Char → Bool) (hSo : SoNotSpace So) (e : Str)
    (hne : e ≠ []) (hall : ∀ c ∈ e, So c = true) (parts : List Str)
    (h : ∀ seg ∈ parts.dropLast, EndsSo So seg) :
    ∀ seg ∈ (splitParts e parts).dropLast, EndsSo So seg := by
  have he : EndsSo So e := EndsSo_of_run So e hne hall
  intro seg hseg
  by_cases hp : parts = []
  · subst hp
    simp [splitParts_nil] at hseg
  · rw [← List.dropLast_append_getLast hp, splitParts_append, splitParts_singleton] at hseg
    rcases mem_dropLast_append _ _ seg hseg with h1 | h1
    · rw [splitParts_eq, List.mem_flatMap] at h1
      obtain ⟨P, hP, hsP⟩ := h1
      exact splitPart_EndsSo So hSo e P hne he (h P hP) seg hsP
    · exact pieces_dropLast_EndsSo So e he _ seg h1

theorem foldEmojis_inv (So : Char → Bool) (hSo : SoNotSpace So) :
    ∀ (E : List Str), (∀ e ∈ E, e ≠ [] ∧ ∀ c ∈ e, So c = true) →
      ∀ (parts : List Str), (∀ seg ∈ parts.dropLast, EndsSo So seg) →
        ∀ seg ∈ (foldEmojis E parts).dropLast, EndsSo So seg := by
  intro E
  induction E with
  | nil => intro _ parts h; exact h
  | cons e E ih =>
    intro hE parts h
    rw [foldEmojis_cons]
    have h1 := hE e (List.mem_cons_self _ _)
    exact ih (fun e he => hE e (List.mem_cons_of_mem _ he)) _
      (splitParts_inv So hSo e h1.1 h1.2 parts h)

/-! ## Lemmas: the shape of the glyph list -/

theorem soRuns_pending (So : Char → Bool) :
    ∀ (s cur : Str), cur ≠ [] →
      soRuns So cur s = (cur.reverse ++ s.takeWhile So) :: soRuns So [] (s.dropWhile So) := by
  intro s
  induction s with
  | nil => intro cur hc; simp [soRuns, hc]
  | cons d s ih =>
    intro cur hc
    by_cases hd : So d = true
    · simp only [soRuns, hd, if_true, List.takeWhile_cons, List.dropWhile_cons]
      rw [ih (d :: cur) (by simp)]
      simp
    · simp [soRuns, hd, hc, List.takeWhile_cons, List.dropWhile_cons]

theorem soRuns_skip (So : Char → Bool) (T s : Str) (hT : ∀ c ∈ T, So c = false) :
    soRuns So [] (T ++ s) = soRuns So [] s := by
  induction T with
  | nil => rfl
  | cons d T ih =>
    have hd : So d = false := hT d (List.mem_cons_self _ _)
    simp only [List.cons_append, soRuns, hd]
    exact ih (fun c hc => hT c (List.mem_cons_of_mem _ hc))

theorem soRuns_start (So : Char → Bool) (d : Char) (s : Str) (hd : So d = true) :
    soRuns So [] (d :: s) = (d :: s.takeWhile So) :: soRuns So [] (s.dropWhile So) := by
  simp only [soRuns, hd, if_true]
  rw [soRuns_pending So s [d] (by simp)]
  simp

theorem soRuns_tail_free (So : Char → Bool) (r : Str) (hr : ∀ c ∈ r, So c = false) :
    ∀ cur : Str, soRuns So cur r = if cur = [] then [] else [cur.reverse] := by
  induction r with
  | nil => intro cur; rfl
  | cons d r ih =>
    intro cur
    have hd : So d = false := hr d (List.mem_cons_self _ _)
    have h0 := ih (fun c hc => hr c (List.mem_cons_of_mem _ hc)) []
    simp only [if_true] at h0
    by_cases hc : cur = []
    · simp [soRuns, hd, hc, h0]
    · simp [soRuns, hd, hc, h0]

theorem soRuns_append_free (So : Char → Bool) (r : Str) (hr : ∀ c ∈ r, So c = false) :
    ∀ (X cur : Str), soRuns So cur (X ++ r) = soRuns So cur X := by
  intro X
  induction X with
  | nil =>
    intro cur
    rw [List.nil_append, soRuns_tail_free So r hr cur]
    rfl
  | cons d X ih =>
    intro cur
    have e1 : (d :: X) ++ r = d :: (X ++ r) := rfl
    rw [e1]
    simp only [soRuns, ih]

/-- The first glyph run, the text before it and the rest of the string. -/
theorem FindAllString_cons (So : Char → Bool) (s e : Str) (post : List Str)
    (h : FindAllString So s = e :: post) :
    ∃ T R, s = T ++ e ++ R ∧ (∀ c ∈ T, So c = false) ∧ FindAllString So R = post := by
  unfold FindAllString at h ⊢
  have hsplit : s = s.takeWhile (fun c => !So c) ++ s.dropWhile (fun c => !So c) :=
    (List.takeWhile_append_dropWhile _ s).symm
  have hT : ∀ c ∈ s.takeWhile (fun c => !So c), So c = false := by
    intro c hc
    have := List.mem_takeWhile_imp hc
    simpa using this
  rw [hsplit, soRuns_skip So _ _ hT] at h
  rcases hd : s.dropWhile (fun c => !So c) with _ | ⟨d, s2⟩
  · rw [hd] at h
    simp [soRuns] at h
  · have hSd : So d = true := by
      have := dropWhile_head (fun c => !So c) s d s2 hd
      simpa using this
    rw [hd, soRuns_start So d s2 hSd] at h
    simp only [List.cons.injEq] at h
    refine ⟨s.takeWhile (fun c => !So c), s2.dropWhile So, ?_, hT, h.2⟩
    rw [← h.1]
    conv_lhs => rw [hsplit, hd]
    have := List.takeWhile_append_dropWhile So s2
    simp only [List.append_assoc, List.cons_append]
    rw [this]

theorem soRuns_nil (So : Char → Bool) :
    ∀ (s cur : Str), soRuns So cur s = [] → ∀ c ∈ s, So c = false := by
  intro s
  induction s with
  | nil => intro cur _ c hc; simp at hc
  | cons d s ih =>
    intro cur h c hc
    by_cases hd : So d = true
    · simp only [soRuns, hd, if_true] at h
      rw [soRuns_pending So s (d :: cur) (by simp)] at h
      simp at h
    · by_cases hcur : cur = []
      · simp only [soRuns, hd, hcur] at h
        rcases List.mem_cons.mp hc with h1 | h1
        · rw [h1]; simpa using hd
        · exact ih [] h c h1
      · simp [soRuns, hd, hcur] at h

theorem FindAllString_nil (So : Char → Bool) (s : Str) (h : FindAllString So s = []) :
    ∀ c ∈ s, So c = false :=
  soRuns_nil So s [] h

theorem FindAllString_of_free (So : Char → Bool) (s : Str) (h : ∀ c ∈ s, So c = false) :
    FindAllString So s = [] := by
  unfold FindAllString
  rw [soRuns_tail_free So s h []]
  rfl

theorem FindAllString_TrimSpace (So : Char → Bool) (hSo : SoNotSpace So) (s : Str) :
    FindAllString So (TrimSpace s) = FindAllString So s := by
  obtain ⟨l, r, hs, hl, hr⟩ := TrimSpace_decomp s
  have free : ∀ w : Str, (∀ c ∈ w, isSpace c = true) → ∀ c ∈ w, So c = false := by
    intro w hw c hc
    by_contra hcon
    have h1 : So c = true := by simpa using hcon
    have := hSo c h1
    rw [hw c hc] at this
    exact absurd this (by simp)
  conv_rhs => rw [hs]
  unfold FindAllString
  rw [soRuns_append_free So r (free r hr), soRuns_skip So l _ (free l hl)]

theorem soRuns_mem_chars (So : Char → Bool) :
    ∀ (s cur : Str), ∀ e ∈ soRuns So cur s, ∀ c ∈ e, c ∈ cur ∨ c ∈ s := by
  intro s
  induction s with
  | nil =>
    intro cur e he c hc
    by_cases h0 : cur = []
    · simp [soRuns, h0] at he
    · simp only [soRuns, h0, if_false, List.mem_singleton] at he
      subst he
      exact Or.inl (List.mem_reverse.mp hc)
  | cons d s ih =>
    intro cur e he c hc
    by_cases hd : So d = true
    · simp only [soRuns, hd, if_true] at he
      rcases ih (d :: cur) e he c hc with h1 | h1
      · rcases List.mem_cons.mp h1 with h2 | h2
        · exact Or.inr (by simp [h2])
        · exact Or.inl h2
      · exact Or.inr (List.mem_cons_of_mem _ h1)
    · by_cases h0 : cur = []
      · simp only [soRuns, hd, h0] at he
        rcases ih [] e he c hc with h1 | h1
        · simp at h1
        · exact Or.inr (List.mem_cons_of_mem _ h1)
      · simp only [soRuns, hd, h0, if_false, List.mem_cons, Bool.false_eq_true] at he
        rcases he with h1 | h1
        · subst h1
          exact Or.inl (List.mem_reverse.mp hc)
        · rcases ih [] e h1 c hc with h2 | h2
          · simp at h2
          · exact Or.inr (List.mem_cons_of_mem _ h2)

theorem FindAllString_mem_chars (So : Char → Bool) (s e : Str) (he : e ∈ FindAllString So s)
    (c : Char) (hc : c ∈ e) : c ∈ s := by
  rcases soRuns_mem_chars So s [] e he c hc with h | h
  · simp at h
  · exact h

/-! ## Lemmas: segments that the fold leaves alone -/

theorem splitPart_fixed_free (c : Char) (sep P : Str) (hc : c ∉ P) (hP : P ≠ [])
    (hE : NoEdgeSpace P) : splitPart (c :: sep) P = [P] := by
  rw [splitPart_of_not_mem c sep P hc, TrimSpace_of_noEdge P hE]
  simp [hP]

theorem splitPart_fixed_closed (c : Char) (sep Q : Str) (hc : c ∉ Q) (hQ : Q ≠ [])
    (hE : NoEdgeSpace Q) : splitPart (c :: sep) (Q ++ (c :: sep)) = [Q ++ (c :: sep)] := by
  have h := splitPart_append c sep Q [] hc
  rw [List.append_nil] at h
  rw [h, splitPart_nil, TrimSpace_of_noEdge Q hE]
  simp [hQ]

theorem flatMap_fixed {α : Type} (f : α → List α) (l : List α) (h : ∀ x ∈ l, f x = [x]) :
    l.flatMap f = l := by
  induction l with
  | nil => rfl
  | cons a l ih =>
    rw [List.flatMap_cons, h a (List.mem_cons_self _ _),
      ih (fun x hx => h x (List.mem_cons_of_mem _ hx))]
    rfl

theorem GoodPart_fixed (So : Char → Bool) (E : List Str)
    (hE : ∀ e ∈ E, e ≠ [] ∧ ∀ c ∈ e, So c = true)
    (hD : E.Pairwise List.Disjoint) (P e : Str) (hP : GoodPart So E P) (he : e ∈ E) :
    splitPart e P = [P] := by
  obtain ⟨hne, hall⟩ := hE e he
  rcases e with _ | ⟨c, sep⟩
  · exact absurd rfl hne
  · have hcS : So c = true := hall c (List.mem_cons_self _ _)
    obtain ⟨hPne, hPedge, hshape⟩ := hP
    rcases hshape with hfree | ⟨Q, r, hPQ, hQne, hQedge, hQfree, hr⟩
    · have hc : c ∉ P := by
        intro h
        have := hfree c h
        rw [hcS] at this
        exact absurd this (by simp)
      exact splitPart_fixed_free c sep P hc hPne hPedge
    · have hcQ : c ∉ Q := by
        intro h
        have := hQfree c h
        rw [hcS] at this
        exact absurd this (by simp)
      by_cases hre : r = c :: sep
      · rw [hPQ, hre]
        exact splitPart_fixed_closed c sep Q hcQ hQne hQedge
      · have hdis : List.Disjoint r (c :: sep) :=
          hD.forall (fun _ _ h => h.symm) hr he hre
        have hc : c ∉ P := by
          rw [hPQ]
          intro h
          rcases List.mem_append.mp h with h1 | h1
          · exact hcQ h1
          · exact hdis h1 (List.mem_cons_self _ _)
        exact splitPart_fixed_free c sep P hc hPne hPedge

theorem filter_So_decomp (So : Char → Bool) (T e R : Str) (hT : ∀ c ∈ T, So c = false)
    (he : ∀ c ∈ e, So c = true) : (T ++ e ++ R).filter So = e ++ R.filter So := by
  have h1 : T.filter So = [] := by
    rw [List.filter_eq_nil_iff]
    intro c hc
    rw [hT c hc]; simp
  have h2 : e.filter So = e := by
    rw [List.filter_eq_self]
    exact he
  rw [List.filter_append, List.filter_append, h1, h2, List.nil_append]

theorem FindAllString_pairwise (So : Char → Bool) :
    ∀ (n : Nat) (s : Str), s.length ≤ n → (s.filter So).Nodup →
      (FindAllString So s).Pairwise List.Disjoint := by
  intro n
  induction n with
  | zero =>
    intro s hn _
    have hs : s = [] := List.length_eq_zero.mp (Nat.le_zero.mp hn)
    subst hs
    simp [FindAllString, soRuns]
  | succ n ih =>
    intro s hn hnd
    rcases hF : FindAllString So s with _ | ⟨e, post⟩
    · exact List.Pairwise.nil
    · obtain ⟨T, R, hs, hT, hR⟩ := FindAllString_cons So s e post hF
      have hespec := FindAllString_spec So s e (by rw [hF]; exact List.mem_cons_self _ _)
      have hfil := filter_So_decomp So T e R hT hespec.2
      rw [hs, hfil] at hnd
      have hnd2 := List.nodup_append.mp hnd
      have hlen : R.length ≤ n := by
        have h1 : 0 < e.length := List.length_pos.mpr hespec.1
        have h2 : s.length = T.length + e.length + R.length := by
          rw [hs]; simp only [List.length_append]
        omega
      rw [List.pairwise_cons]
      refine ⟨?_, ?_⟩
      · intro r hr
        rw [← hR] at hr
        intro c hce hcr
        have h1 : c ∈ R := FindAllString_mem_chars So R r hr c hcr
        have h2 : So c = true := hespec.2 c hce
        exact hnd2.2.2 hce (List.mem_filter.mpr ⟨h1, h2⟩)
      · rw [← hR]
        exact ih R hlen hnd2.2.1

theorem TrimSpace_sublist (s : Str) : (TrimSpace s).Sublist s := by
  obtain ⟨l, r, hs, -, -⟩ := TrimSpace_decomp s
  conv_rhs => rw [hs]
  exact ((List.sublist_append_right l (TrimSpace s)).trans
    (List.sublist_append_left _ r))

theorem NoEdgeSpace_text_run (So : Char → Bool) (hSo : SoNotSpace So) (Q e : Str)
    (hQ : Q ≠ []) (hQe : NoEdgeSpace Q) (hne : e ≠ []) (he : ∀ c ∈ e, So c = true) :
    NoEdgeSpace (Q ++ e) := by
  constructor
  · intro c hc
    rw [List.head?_append_of_ne_nil _ hQ] at hc
    exact hQe.1 c hc
  · intro c hc
    rw [List.getLast?_append_of_ne_nil _ hne, List.getLast?_eq_getLast _ hne] at hc
    simp at hc
    rw [← hc]
    exact hSo _ (he _ (List.getLast_mem hne))

theorem soRuns_exists_run (So : Char → Bool) :
    ∀ (s cur : Str) (c : Char), So c = true → (c ∈ cur ∨ c ∈ s) →
      ∃ r ∈ soRuns So cur s, c ∈ r := by
  intro s
  induction s with
  | nil =>
    intro cur c _ hmem
    rcases hmem with h | h
    · have hne : cur ≠ [] := by
        intro h0; rw [h0] at h; simp at h
      exact ⟨cur.reverse, by simp [soRuns, hne], List.mem_reverse.mpr h⟩
    · simp at h
  | cons d s ih =>
    intro cur c hc hmem
    by_cases hd : So d = true
    · simp only [soRuns, hd, if_true]
      apply ih (d :: cur) c hc
      rcases hmem with h | h
      · exact Or.inl (List.mem_cons_of_mem _ h)
      · rcases List.mem_cons.mp h with h1 | h1
        · exact Or.inl (by simp [h1])
        · exact Or.inr h1
    · have hcd : c ≠ d := by
        intro h0; rw [h0] at hc; exact hd hc
      by_cases h0 : cur = []
      · simp only [soRuns, hd, h0]
        apply ih [] c hc
        rcases hmem with h | h
        · rw [h0] at h; simp at h
        · rcases List.mem_cons.mp h with h1 | h1
          · exact absurd h1 hcd
          · exact Or.inr h1
      · simp only [soRuns, hd, h0, if_false, Bool.false_eq_true, List.mem_cons]
        rcases hmem with h | h
        · exact ⟨cur.reverse, Or.inl rfl, List.mem_reverse.mpr h⟩
        · rcases List.mem_cons.mp h with h1 | h1
          · exact absurd h1 hcd
          · obtain ⟨r, hr, hcr⟩ := ih [] c hc (Or.inr h1)
            exact ⟨r, Or.inr hr, hcr⟩

/-- Every Other-Symbol character of a string lies in one of its glyph runs. -/
theorem FindAllString_exists_run (So : Char → Bool) (s : Str) (c : Char) (hc : So c = true)
    (hmem : c ∈ s) : ∃ r ∈ FindAllString So s, c ∈ r :=
  soRuns_exists_run So s [] c hc (Or.inr hmem)

/-- One unfolding of `FormatText` at the first glyph run of a string whose glyph
runs are pairwise disjoint. -/
theorem FormatText_unfold (So : Char → Bool) (hSo : SoNotSpace So) (T e R : Str)
    (post : List Str) (hD : (e :: post).Pairwise List.Disjoint)
    (hF : FindAllString So (T ++ e ++ R) = e :: post)
    (hT : ∀ c ∈ T, So c = false) (hR : FindAllString So R = post) :
    FormatText So (T ++ e ++ R) =
      (if TrimSpace T ≠ [] then [TrimSpace T ++ e] else []) ++
        (if TrimSpace R ≠ [] then FormatText So (TrimSpace R) else []) := by
  have hespec := FindAllString_spec So _ e (by rw [hF]; exact List.mem_cons_self _ _)
  have hdis : ∀ r ∈ post, List.Disjoint e r := (List.pairwise_cons.mp hD).1
  have hpostspec : ∀ r ∈ post, r ≠ [] ∧ ∀ c ∈ r, So c = true := by
    intro r hr
    rw [← hR] at hr
    exact FindAllString_spec So R r hr
  obtain ⟨hne, hall⟩ := hespec
  rcases e with _ | ⟨c, sep⟩
  · exact absurd rfl hne
  · have hcS : So c = true := hall c (List.mem_cons_self _ _)
    have hcT : c ∉ T := by
      intro h
      have := hT c h
      rw [hcS] at this
      exact absurd this (by simp)
    have hcR : c ∉ R := by
      intro h
      obtain ⟨r, hr, hcr⟩ := FindAllString_exists_run So R c hcS h
      rw [hR] at hr
      exact hdis r hr (List.mem_cons_self _ _) hcr
    have hstep : splitParts (c :: sep) [T ++ (c :: sep) ++ R] =
        (if TrimSpace T ≠ [] then [TrimSpace T ++ (c :: sep)] else []) ++
          (if TrimSpace R ≠ [] then [TrimSpace R] else []) := by
      rw [splitParts_singleton, splitPart_append c sep T R hcT,
        splitPart_of_not_mem c sep R hcR]
    unfold FormatText
    simp only
    rw [hF, foldEmojis_cons, hstep, foldEmojis_append]
    congr 1
    · by_cases hTT : TrimSpace T = []
      · simp [hTT, foldEmojis_empty]
      · simp only [ne_eq, hTT, not_false_eq_true, if_true]
        apply foldEmojis_stable
        intro e2 he2
        rw [splitParts_singleton]
        obtain ⟨hne2, hall2⟩ := hpostspec e2 he2
        have hdis2 := hdis e2 he2
        rcases e2 with _ | ⟨c2, sep2⟩
        · exact absurd rfl hne2
        · have hc2S : So c2 = true := hall2 c2 (List.mem_cons_self _ _)
          apply splitPart_fixed_free
          · intro h
            rcases List.mem_append.mp h with h1 | h1
            · have := hT c2 (mem_of_mem_TrimSpace T c2 h1)
              rw [hc2S] at this
              exact absurd this (by simp)
            · exact hdis2 h1 (List.mem_cons_self _ _)
          · simp
          · exact NoEdgeSpace_text_run So hSo _ _ hTT (TrimSpace_noEdge T) (by simp) hall
    · by_cases hRR : TrimSpace R = []
      · simp [hRR, foldEmojis_empty]
      · simp only [ne_eq, hRR, not_false_eq_true, if_true]
        rw [FindAllString_TrimSpace So hSo R, hR]

theorem GoodPart_mono (So : Char → Bool) (E : List Str) (e P : Str)
    (h : GoodPart So E P) : GoodPart So (e :: E) P := by
  obtain ⟨h1, h2, h3⟩ := h
  refine ⟨h1, h2, ?_⟩
  rcases h3 with h3 | ⟨Q, r, a, b, c, d, f⟩
  · exact Or.inl h3
  · exact Or.inr ⟨Q, r, a, b, c, d, List.mem_cons_of_mem _ f⟩

theorem FormatText_good (So : Char → Bool) (hSo : SoNotSpace So) :
    ∀ (n : Nat) (s : Str), s.length ≤ n → (FindAllString So s).Pairwise List.Disjoint →
      (FindAllString So s ≠ [] ∨ (s ≠ [] ∧ NoEdgeSpace s)) →
      ∀ P ∈ FormatText So s, GoodPart So (FindAllString So s) P := by
  intro n
  induction n with
  | zero =>
    intro s hn _ hpre P hP
    have hs : s = [] := List.length_eq_zero.mp (Nat.le_zero.mp hn)
    subst hs
    rcases hpre with h | h
    · exact absurd rfl h
    · exact absurd rfl h.1
  | succ n ih =>
    intro s hn hD hpre P hP
    rcases hF : FindAllString So s with _ | ⟨e, post⟩
    · rcases hpre with h | h
      · exact absurd hF h
      · have hPs : P = s := by
          unfold FormatText at hP
          simp only [hF] at hP
          simpa [foldEmojis_nil] using hP
        rw [hPs]
        exact ⟨h.1, h.2, Or.inl (FindAllString_nil So s hF)⟩
    · obtain ⟨T, R, hs, hT, hR⟩ := FindAllString_cons So s e post hF
      have hespec := FindAllString_spec So s e (by rw [hF]; exact List.mem_cons_self _ _)
      rw [hF] at hD
      subst hs
      rw [FormatText_unfold So hSo T e R post hD hF hT hR, List.mem_append] at hP
      rcases hP with hP | hP
      · by_cases hTT : TrimSpace T = []
        · simp [hTT] at hP
        · simp only [ne_eq, hTT, not_false_eq_true, if_true, List.mem_singleton] at hP
          subst hP
          refine ⟨by simp [hTT],
            NoEdgeSpace_text_run So hSo _ _ hTT (TrimSpace_noEdge T) hespec.1 hespec.2,
            Or.inr ⟨TrimSpace T, e, rfl, hTT, TrimSpace_noEdge T, ?_, List.mem_cons_self _ _⟩⟩
          intro c hc
          exact hT c (mem_of_mem_TrimSpace T c hc)
      · by_cases hRR : TrimSpace R = []
        · simp [hRR] at hP
        · simp only [ne_eq, hRR, not_false_eq_true, if_true] at hP
          have hlen : (TrimSpace R).length ≤ n := by
            have h1 : 0 < e.length := List.length_pos.mpr hespec.1
            have h2 : (T ++ e ++ R).length = T.length + e.length + R.length := by
              simp only [List.length_append]
            have h3 := (TrimSpace_sublist R).length_le
            omega
          have hD3 : (FindAllString So (TrimSpace R)).Pairwise List.Disjoint := by
            rw [FindAllString_TrimSpace So hSo R, hR]
            exact (List.pairwise_cons.mp hD).2
          have := ih (TrimSpace R) hlen hD3 (Or.inr ⟨hRR, TrimSpace_noEdge R⟩) P hP
          rw [FindAllString_TrimSpace So hSo R, hR] at this
          exact GoodPart_mono So post e P this

/-- Folding again over the glyph list changes nothing when the glyph runs are
pairwise disjoint. -/
theorem refold_fixed (So : Char → Bool) (hSo : SoNotSpace So) (text : Str)
    (hD : (FindAllString So text).Pairwise List.Disjoint) :
    foldEmojis (FindAllString So text) (FormatText So text) = FormatText So text := by
  by_cases hF : FindAllString So text = []
  · rw [hF]; rfl
  · apply foldEmojis_stable
    intro e he
    rw [splitParts_eq]
    apply flatMap_fixed
    intro P hP
    exact GoodPart_fixed So _ (fun e he => FindAllString_spec So text e he) hD P e
      (FormatText_good So hSo _ text (le_refl _) hD (Or.inl hF) P hP) he

/-! ## Lemmas: parts made of tokens -/

theorem render_cons (fl : Bool) (p : Str × Char) (l : List (Str × Char)) (hl : l ≠ []) :
    render fl (p :: l) = p.1 ++ [' ', p.2, ' '] ++ render fl l := by
  cases l with
  | nil => exact absurd rfl hl
  | cons q rest => rfl

theorem interior_cons (fl : Bool) (p : Str × Char) (l : List (Str × Char)) (hl : l ≠ []) :
    interior fl (p :: l) = p.2 :: interior fl l := by
  cases l with
  | nil => exact absurd rfl hl
  | cons q rest => rfl

theorem raw_cons (p : Str × Char) (l : List (Str × Char)) :
    raw (p :: l) = p.1 ++ [' ', p.2, ' '] ++ raw l := by
  simp [raw]

theorem render_append (fl : Bool) (pre toks : List (Str × Char)) (h : toks ≠ []) :
    render fl (pre ++ toks) = raw pre ++ render fl toks := by
  induction pre with
  | nil => simp [raw]
  | cons p pre ih =>
    have hne : pre ++ toks ≠ [] := by simp [h]
    rw [List.cons_append, render_cons fl p _ hne, ih, raw_cons]
    simp only [List.append_assoc]

theorem interior_append (fl : Bool) (pre toks : List (Str × Char)) (h : toks ≠ []) :
    interior fl (pre ++ toks) = pre.map Prod.snd ++ interior fl toks := by
  induction pre with
  | nil => simp
  | cons p pre ih =>
    have hne : pre ++ toks ≠ [] := by simp [h]
    rw [List.cons_append, interior_cons fl p _ hne, ih]
    simp

theorem interior_open (toks : List (Str × Char)) :
    interior false toks = toks.map Prod.snd := by
  induction toks with
  | nil => rfl
  | cons p l ih =>
    cases l with
    | nil => simp [interior]
    | cons q rest =>
      rw [interior_cons false p _ (by simp), ih]
      simp

theorem mem_raw (pre : List (Str × Char)) (c : Char) (h : c ∈ raw pre) :
    c = ' ' ∨ ∃ p ∈ pre, c ∈ p.1 ∨ c = p.2 := by
  unfold raw at h
  rw [List.mem_flatMap] at h
  obtain ⟨p, hp, hc⟩ := h
  simp only [List.mem_append, List.mem_cons, List.mem_singleton, List.not_mem_nil,
    or_false] at hc
  rcases hc with h1 | h1 | h1 | h1
  · exact Or.inr ⟨p, hp, Or.inl h1⟩
  · exact Or.inl h1
  · exact Or.inr ⟨p, hp, Or.inr h1⟩
  · exact Or.inl h1

theorem mem_render (fl : Bool) (toks : List (Str × Char)) (c : Char)
    (h : c ∈ render fl toks) : c = ' ' ∨ ∃ p ∈ toks, c ∈ p.1 ∨ c = p.2 := by
  induction toks with
  | nil => simp [render] at h
  | cons p l ih =>
    cases l with
    | nil =>
      cases fl <;>
        simp only [render, List.mem_append, List.mem_cons, List.mem_singleton,
          List.not_mem_nil, or_false, if_true, if_false, Bool.false_eq_true] at h
      · rcases h with h1 | h1 | h1
        · exact Or.inr ⟨p, by simp, Or.inl h1⟩
        · exact Or.inl h1
        · exact Or.inr ⟨p, by simp, Or.inr h1⟩
      · rcases h with h1 | h1
        · exact Or.inr ⟨p, by simp, Or.inl h1⟩
        · exact Or.inr ⟨p, by simp, Or.inr h1⟩
    | cons q rest =>
      rw [render_cons fl p _ (by simp)] at h
      simp only [List.mem_append, List.mem_cons, List.mem_singleton, List.not_mem_nil,
        or_false] at h
      rcases h with (h1 | h1 | h1 | h1) | h1
      · exact Or.inr ⟨p, by simp, Or.inl h1⟩
      · exact Or.inl h1
      · exact Or.inr ⟨p, by simp, Or.inr h1⟩
      · exact Or.inl h1
      · rcases ih h1 with h2 | ⟨p2, hp2, h2⟩
        · exact Or.inl h2
        · exact Or.inr ⟨p2, List.mem_cons_of_mem _ hp2, h2⟩

theorem So_blank (So : Char → Bool) (hSo : SoNotSpace So) : So ' ' = false := by
  by_contra h
  have h1 : So ' ' = true := by simpa using h
  have := hSo ' ' h1
  exact absurd this (by decide)

/-- A glyph that is none of the glyphs of the tokens does not occur in strings
built from them. -/
theorem glyph_not_mem (So : Char → Bool) (hSo : SoNotSpace So) (g : Char) (hg : So g = true)
    (toks : List (Str × Char)) (hv : ∀ p ∈ toks, ValidToken So p)
    (hgl : g ∉ toks.map Prod.snd) (x : Str)
    (hx : ∀ c ∈ x, c = ' ' ∨ ∃ p ∈ toks, c ∈ p.1 ∨ c = p.2) : g ∉ x := by
  intro h
  rcases hx g h with h1 | ⟨p, hp, h1 | h1⟩
  · rw [h1, So_blank So hSo] at hg
    exact absurd hg (by simp)
  · have := (hv p hp).2.2.1 g h1
    rw [hg] at this
    exact absurd this (by simp)
  · exact hgl (List.mem_map.mpr ⟨p, hp, h1.symm⟩)

theorem NoEdgeSpace_raw_text (So : Char → Bool) (pre : List (Str × Char))
    (hv : ∀ p ∈ pre, ValidToken So p) (t : Str) (ht : t ≠ []) (hte : NoEdgeSpace t) :
    NoEdgeSpace (raw pre ++ t) := by
  constructor
  · intro c hc
    cases pre with
    | nil =>
      simp only [raw, List.flatMap_nil, List.nil_append] at hc
      exact hte.1 c hc
    | cons p pre =>
      have hp := hv p (List.mem_cons_self _ _)
      rw [raw_cons, List.append_assoc, List.append_assoc,
        List.head?_append_of_ne_nil _ hp.1] at hc
      exact hp.2.1.1 c hc
  · intro c hc
    rw [List.getLast?_append_of_ne_nil _ ht] at hc
    exact hte.2 c hc

theorem render_getLast (So : Char → Bool) (fl : Bool) (toks : List (Str × Char))
    (hne : toks ≠ []) (hv : ∀ p ∈ toks, ValidToken So p) :
    ∃ c, (render fl toks).getLast? = some c ∧ So c = true := by
  induction toks with
  | nil => exact absurd rfl hne
  | cons p l ih =>
    cases l with
    | nil =>
      refine ⟨p.2, ?_, (hv p (List.mem_cons_self _ _)).2.2.2⟩
      cases fl <;> simp [render]
    | cons q rest =>
      obtain ⟨c, hc, hS⟩ := ih (by simp) (fun x hx => hv x (List.mem_cons_of_mem _ hx))
      refine ⟨c, ?_, hS⟩
      rw [render_cons fl p _ (by simp)]
      have hne2 : render fl (q :: rest) ≠ [] := by
        intro h0; rw [h0] at hc; simp at hc
      rw [List.getLast?_append_of_ne_nil _ hne2]
      exact hc

theorem render_ne_nil (fl : Bool) (toks : List (Str × Char)) (hne : toks ≠ [])
    (h1 : ∀ p ∈ toks, p.1 ≠ []) : render fl toks ≠ [] := by
  cases toks with
  | nil => exact absurd rfl hne
  | cons p l =>
    have hp := h1 p (List.mem_cons_self _ _)
    cases l with
    | nil => simp [render, hp]
    | cons q rest => simp [render, hp]

theorem render_noEdge (So : Char → Bool) (hSo : SoNotSpace So) (fl : Bool)
    (toks : List (Str × Char)) (hne : toks ≠ []) (hv : ∀ p ∈ toks, ValidToken So p) :
    NoEdgeSpace (render fl toks) := by
  constructor
  · intro c hc
    cases toks with
    | nil => exact absurd rfl hne
    | cons p l =>
      have hp := hv p (List.mem_cons_self _ _)
      cases l with
      | nil =>
        simp only [render] at hc
        rw [List.head?_append_of_ne_nil _ hp.1] at hc
        exact hp.2.1.1 c hc
      | cons q rest =>
        simp only [render] at hc
        rw [List.append_assoc, List.head?_append_of_ne_nil _ hp.1] at hc
        exact hp.2.1.1 c hc
  · intro c hc
    obtain ⟨d, hd, hS⟩ := render_getLast So fl toks hne hv
    rw [hd] at hc
    simp at hc
    rw [← hc]
    exact hSo d hS

theorem blank_isSpace (w : Str) (hw : ∀ c ∈ w, c = ' ') : ∀ c ∈ w, isSpace c = true := by
  intro c hc
  rw [hw c hc]
  decide

/-- Cutting a part at the first token that carries the glyph `g`. -/
theorem splitPart_token (So : Char → Bool) (hSo : SoNotSpace So) (g : Char)
    (hg : So g = true) (pre : List (Str × Char)) (hv : ∀ p ∈ pre, ValidToken So p)
    (hgpre : g ∉ pre.map Prod.snd) (t : Str) (ht : t ≠ []) (hte : NoEdgeSpace t)
    (htf : ∀ c ∈ t, So c = false) (lead ws b : Str) (hlead : ∀ c ∈ lead, c = ' ')
    (hws : ∀ c ∈ ws, c = ' ') :
    splitPart [g] (lead ++ (raw pre ++ t) ++ ws ++ [g] ++ b) =
      [raw pre ++ t ++ [g]] ++ splitPart [g] b := by
  have hgb : g ≠ ' ' := by
    intro h
    rw [h, So_blank So hSo] at hg
    exact absurd hg (by simp)
  have hga : g ∉ lead ++ (raw pre ++ t) ++ ws := by
    intro h
    simp only [List.mem_append] at h
    rcases h with (h1 | h1 | h1) | h1
    · exact hgb (hlead g h1)
    · exact glyph_not_mem So hSo g hg pre hv hgpre (raw pre) (mem_raw pre) h1
    · have := htf g h1
      rw [hg] at this
      exact absurd this (by simp)
    · exact hgb (hws g h1)
  have hx : NoEdgeSpace (raw pre ++ t) := NoEdgeSpace_raw_text So pre hv t ht hte
  have htrim : TrimSpace (lead ++ (raw pre ++ t) ++ ws) = raw pre ++ t :=
    TrimSpace_core lead _ ws hx (blank_isSpace lead hlead) (blank_isSpace ws hws)
  have hne : raw pre ++ t ≠ [] := by simp [ht]
  rw [splitPart_append g [] _ b hga, htrim]
  simp [hne]

/-- One round of the fold on a part made of tokens, cut at the glyph `g`; the
rounds for the other glyphs `Es` are assumed to finish every part. -/
theorem foldEmojis_tokens_step (So : Char → Bool) (hSo : SoNotSpace So) (g : Char)
    (hg : So g = true) (Es : List Str)
    (IH : ∀ (toks : List (Str × Char)) (fl : Bool), toks ≠ [] →
      (∀ p ∈ toks, ValidToken So p) → (∀ h ∈ interior fl toks, [h] ∈ Es) →
      foldEmojis Es [render fl toks] = toks.map tokenString) :
    ∀ (toks pre : List (Str × Char)) (lead : Str) (fl : Bool),
      (∀ c ∈ lead, c = ' ') → (∀ p ∈ pre ++ toks, ValidToken So p) →
      pre ++ toks ≠ [] → g ∉ pre.map Prod.snd →
      (∀ h ∈ interior fl (pre ++ toks), h = g ∨ [h] ∈ Es) →
      foldEmojis ([g] :: Es) [lead ++ render fl (pre ++ toks)] =
        (pre ++ toks).map tokenString := by
  intro toks
  induction toks with
  | nil =>
    intro pre lead fl hlead hv hne hgpre hint
    rw [List.append_nil] at hv hne hint ⊢
    have hgb : g ≠ ' ' := by
      intro h
      rw [h, So_blank So hSo] at hg
      exact absurd hg (by simp)
    have hgP : g ∉ lead ++ render fl pre := by
      intro h
      rcases List.mem_append.mp h with h1 | h1
      · exact hgb (hlead g h1)
      · exact glyph_not_mem So hSo g hg pre hv hgpre _ (mem_render fl pre) h1
    have htrim : TrimSpace (lead ++ render fl pre) = render fl pre := by
      have := TrimSpace_core lead (render fl pre) [] (render_noEdge So hSo fl pre hne hv)
        (blank_isSpace lead hlead) (by simp)
      rwa [List.append_nil] at this
    have hrne : render fl pre ≠ [] := render_ne_nil fl pre hne (fun p hp => (hv p hp).1)
    rw [foldEmojis_cons, splitParts_singleton, splitPart_of_not_mem g [] _ hgP, htrim]
    simp only [ne_eq, hrne, not_false_eq_true, if_true]
    apply IH pre fl hne hv
    intro h hh
    rcases hint h hh with h1 | h1
    · exfalso
      apply hgpre
      rw [← h1]
      cases fl
      · rw [interior_open] at hh; exact hh
      · have hsub : ∀ (l : List (Str × Char)), ∀ x ∈ interior true l, x ∈ l.map Prod.snd := by
          intro l
          induction l with
          | nil => intro x hx; simp [interior] at hx
          | cons p l ihl =>
            cases l with
            | nil => intro x hx; simp [interior] at hx
            | cons q rest =>
              intro x hx
              rw [interior_cons true p _ (by simp)] at hx
              rcases List.mem_cons.mp hx with h2 | h2
              · simp [h2]
              · exact List.mem_map.mpr (by
                  obtain ⟨y, hy, hy2⟩ := List.mem_map.mp (ihl x h2)
                  exact ⟨y, List.mem_cons_of_mem _ hy, hy2⟩)
        exact hsub pre h hh
    · exact h1
  | cons q post ih =>
    intro pre lead fl hlead hv hne hgpre hint
    by_cases hq : q.2 = g
    · have hvpre : ∀ p ∈ pre, ValidToken So p := fun p hp => hv p (by simp [hp])
      have hvq : ValidToken So q := hv q (by simp)
      have hclosed : render true (pre ++ [q]) = raw pre ++ q.1 ++ [g] := by
        rw [render_append true pre [q] (by simp)]
        simp [render, hq]
      have hfirst : foldEmojis Es [raw pre ++ q.1 ++ [g]] = (pre ++ [q]).map tokenString := by
        rw [← hclosed]
        apply IH (pre ++ [q]) true (by simp)
        · intro p hp
          apply hv p
          rcases List.mem_append.mp hp with h1 | h1
          · simp [h1]
          · simp only [List.mem_singleton] at h1; simp [h1]
        · intro h hh
          rw [interior_append true pre [q] (by simp)] at hh
          simp only [interior, if_true, List.append_nil] at hh
          have hin : h ∈ interior fl (pre ++ q :: post) := by
            rw [interior_append fl pre (q :: post) (by simp)]
            exact List.mem_append_left _ hh
          rcases hint h hin with h1 | h1
          · exfalso; apply hgpre; rw [← h1]; exact hh
          · exact h1
      cases post with
      | nil =>
        have hP : lead ++ render fl (pre ++ [q]) =
            lead ++ (raw pre ++ q.1) ++ (if fl then [] else [' ']) ++ [g] ++ [] := by
          rw [render_append fl pre [q] (by simp)]
          cases fl <;> simp [render, hq]
        rw [foldEmojis_cons, splitParts_singleton, hP,
          splitPart_token So hSo g hg pre hvpre hgpre q.1 hvq.1 hvq.2.1 hvq.2.2.1 lead _ []
            hlead (by cases fl <;> simp),
          splitPart_nil, List.append_nil]
        exact hfirst
      | cons q2 post2 =>
        have hP : lead ++ render fl (pre ++ q :: q2 :: post2) =
            lead ++ (raw pre ++ q.1) ++ [' '] ++ [g] ++ ([' '] ++ render fl ([] ++ q2 :: post2)) := by
          rw [render_append fl pre (q :: q2 :: post2) (by simp)]
          simp [render, hq]
        have hrest := ih [] [' '] fl (by simp)
          (fun p hp => hv p (by simp at hp; simp [hp])) (by simp) (by simp)
          (by
            intro h hh
            apply hint h
            rw [interior_append fl pre (q :: q2 :: post2) (by simp),
              interior_cons fl q _ (by simp)]
            simp only [List.nil_append] at hh
            simp [hh])
        rw [foldEmojis_cons, splitParts_singleton, hP,
          splitPart_token So hSo g hg pre hvpre hgpre q.1 hvq.1 hvq.2.1 hvq.2.2.1 lead _ _
            hlead (by simp),
          List.singleton_append, foldEmojis_cons_parts, hfirst,
          ← splitParts_singleton, ← foldEmojis_cons, hrest]
        simp
    · have := ih (pre ++ [q]) lead fl hlead
        (by simpa using hv) (by simp)
        (by
          simp only [List.map_append, List.map_cons, List.map_nil, List.mem_append,
            List.mem_singleton]
          intro h
          rcases h with h1 | h1
          · exact hgpre h1
          · exact hq h1.symm)
        (by simpa using hint)
      simpa using this

/-- The fold over single-glyph runs that cover the interior glyphs of a part
made of tokens cuts it into its tokens. -/
theorem foldEmojis_tokens (So : Char → Bool) (hSo : SoNotSpace So) :
    ∀ (Es : List Str), (∀ e ∈ Es, ∃ g, e = [g] ∧ So g = true) →
      ∀ (toks : List (Str × Char)) (fl : Bool), toks ≠ [] →
        (∀ p ∈ toks, ValidToken So p) → (∀ h ∈ interior fl toks, [h] ∈ Es) →
        foldEmojis Es [render fl toks] = toks.map tokenString := by
  intro Es
  induction Es with
  | nil =>
    intro _ toks fl hne _ hint
    cases toks with
    | nil => exact absurd rfl hne
    | cons p l =>
      cases l with
      | nil =>
        cases fl
        · have := hint p.2 (by simp [interior])
          simp at this
        · simp [foldEmojis_nil, render, tokenString]
      | cons q rest =>
        have := hint p.2 (by rw [interior_cons fl p _ (by simp)]; simp)
        simp at this
  | cons e Es ih =>
    intro hE toks fl hne hv hint
    obtain ⟨g, he, hg⟩ := hE e (List.mem_cons_self _ _)
    subst he
    have IH := ih (fun e he => hE e (List.mem_cons_of_mem _ he))
    have := foldEmojis_tokens_step So hSo g hg Es IH toks [] [] fl (by simp)
      (by simpa using hv) (by simpa using hne) (by simp)
      (by
        intro h hh
        simp only [List.nil_append] at hh
        rcases List.mem_cons.mp (hint h hh) with h1 | h1
        · left; simpa using h1
        · exact Or.inr h1)
    simpa using this

theorem caption_eq_render (toks : List (Str × Char)) : caption toks = render false toks := by
  unfold caption
  induction toks with
  | nil => rfl
  | cons p l ih =>
    cases l with
    | nil => simp [render, List.intercalate, List.intersperse]
    | cons q rest =>
      rw [render_cons false p _ (by simp), ← ih]
      simp [List.intercalate, List.intersperse]

theorem FindAllString_render (So : Char → Bool) (hSo : SoNotSpace So)
    (toks : List (Str × Char)) (hv : ∀ p ∈ toks, ValidToken So p) :
    FindAllString So (render false toks) = toks.map (fun p => [p.2]) := by
  have hb : So ' ' = false := So_blank So hSo
  unfold FindAllString
  induction toks with
  | nil => rfl
  | cons p l ih =>
    have hp := hv p (List.mem_cons_self _ _)
    cases l with
    | nil =>
      simp only [render, Bool.false_eq_true, if_false, List.map_cons, List.map_nil]
      rw [soRuns_skip So p.1 _ hp.2.2.1]
      simp [soRuns, hb, hp.2.2.2]
    | cons q rest =>
      have ih2 := ih (fun x hx => hv x (List.mem_cons_of_mem _ hx))
      rw [render_cons false p _ (by simp), List.append_assoc,
        soRuns_skip So p.1 _ hp.2.2.1]
      simp only [List.cons_append, List.nil_append, List.map_cons]
      rw [show soRuns So [] (' ' :: p.2 :: ' ' :: render false (q :: rest)) =
          soRuns So [] (p.2 :: ' ' :: render false (q :: rest)) by simp [soRuns, hb],
        soRuns_start So p.2 _ hp.2.2.2]
      simp only [List.takeWhile_cons, List.dropWhile_cons, hb, Bool.false_eq_true, if_false]
      rw [show soRuns So [] (' ' :: render false (q :: rest)) =
          soRuns So [] (render false (q :: rest)) by simp [soRuns, hb], ih2]
      simp

/-! ## Lemmas: the receive loop -/

theorem storeFrame_spec {Pal : Type} (frames : List (Option Pal)) (fr : FrameGenerated Pal)
    (h : fr.IndexFrame < frames.length) :
    ∃ out, storeFrame frames fr = .ok out ∧ out.length = frames.length ∧
      out[fr.IndexFrame]? =
        (if fr.PalettedImage.isSome then some fr.PalettedImage else frames[fr.IndexFrame]?) ∧
      ∀ i, i ≠ fr.IndexFrame → out[i]? = frames[i]? := by
  unfold storeFrame
  cases hp : fr.PalettedImage with
  | none => exact ⟨frames, by simp⟩
  | some img =>
    refine ⟨frames.set fr.IndexFrame (some img), by simp [h], by simp, by simp [h], ?_⟩
    intro i hi
    rw [List.getElem?_set_ne (Ne.symm hi)]

theorem collectFrames_spec {Pal : Type} :
    ∀ (arr : List (FrameGenerated Pal)) (frames : List (Option Pal)),
      (∀ fr ∈ arr, fr.IndexFrame < frames.length) → (arr.map (·.IndexFrame)).Nodup →
      ∃ out, collectFrames arr.length arr frames = .ok out ∧ out.length = frames.length ∧
        (∀ fr ∈ arr, out[fr.IndexFrame]? =
          (if fr.PalettedImage.isSome then some fr.PalettedImage
           else frames[fr.IndexFrame]?)) ∧
        ∀ i, (∀ fr ∈ arr, fr.IndexFrame ≠ i) → out[i]? = frames[i]? := by
  intro arr
  induction arr with
  | nil => intro frames _ _; exact ⟨frames, by simp [collectFrames]⟩
  | cons fr rest ih =>
    intro frames hlt hnd
    obtain ⟨f1, hf1, hlen1, hat1, hoth1⟩ :=
      storeFrame_spec frames fr (hlt fr (List.mem_cons_self _ _))
    rw [List.map_cons, List.nodup_cons] at hnd
    obtain ⟨out, hout, hlen, hat, hoth⟩ := ih f1
      (fun x hx => by rw [hlen1]; exact hlt x (List.mem_cons_of_mem _ hx)) hnd.2
    refine ⟨out, ?_, by rw [hlen, hlen1], ?_, ?_⟩
    · simp only [List.length_cons, collectFrames, hf1]
      exact hout
    · intro x hx
      rcases List.mem_cons.mp hx with h1 | h1
      · subst h1
        rw [hoth x.IndexFrame, hat1]
        intro y hy heq
        exact hnd.1 (List.mem_map.mpr ⟨y, hy, heq⟩)
      · rw [hat x h1]
        have hne : x.IndexFrame ≠ fr.IndexFrame := by
          intro heq
          exact hnd.1 (List.mem_map.mpr ⟨x, h1, heq⟩)
        rw [hoth1 _ hne]
    · intro i hi
      rw [hoth i (fun y hy => hi y (List.mem_cons_of_mem _ hy)),
        hoth1 i (fun heq => hi fr (List.mem_cons_self _ _) heq.symm)]

/-- The receive loop puts every raster at the index it carries, whatever the
order of arrival. -/
theorem collectFrames_perm {Pal : Type} (results arrivals : List (FrameGenerated Pal))
    (hidx : results.map (·.IndexFrame) = List.range results.length)
    (hperm : arrivals.Perm results) :
    collectFrames results.length arrivals (List.replicate results.length none) =
      .ok (results.map (·.PalettedImage)) := by
  have hlen : arrivals.length = results.length := hperm.length_eq
  have hnd : (arrivals.map (·.IndexFrame)).Nodup := by
    rw [(hperm.map _).nodup_iff, hidx]
    exact List.nodup_range _
  have hlt : ∀ fr ∈ arrivals, fr.IndexFrame < (List.replicate results.length
      (none : Option Pal)).length := by
    intro fr hfr
    have h1 : fr.IndexFrame ∈ results.map (·.IndexFrame) :=
      List.mem_map.mpr ⟨fr, hperm.mem_iff.mp hfr, rfl⟩
    rw [hidx, List.mem_range] at h1
    simpa using h1
  obtain ⟨out, hout, holen, hat, hoth⟩ := collectFrames_spec arrivals _ hlt hnd
  rw [hlen] at hout
  rw [hout]
  congr 1
  apply List.ext_getElem?
  intro i
  by_cases hi : i < results.length
  · have hidx_i : (results[i]).IndexFrame = i := by
      have h1 : (results.map (·.IndexFrame))[i]? = (List.range results.length)[i]? := by
        rw [hidx]
      simp only [List.getElem?_map, List.getElem?_eq_getElem hi, Option.map_some',
        List.getElem?_range hi] at h1
      simpa using h1
    have hmem : results[i] ∈ arrivals := hperm.mem_iff.mpr (List.getElem_mem hi)
    have := hat _ hmem
    rw [hidx_i] at this
    rw [this]
    simp only [List.getElem?_map, List.getElem?_eq_getElem hi, Option.map_some']
    cases hp : (results[i]).PalettedImage with
    | none => simp [hi]
    | some img => simp
  · have h1 : out[i]? = none := by
      rw [List.getElem?_eq_none]
      rw [holen]; simpa using hi
    rw [h1]
    symm
    rw [List.getElem?_eq_none]
    simpa using hi

/-! ## Lemmas: the workers and the frame slice -/

theorem generateFrame_ok {Img Pal : Type} (L : Lib Img Pal) (b : ByteSlice) (i : Nat)
    (h : L.decode b.data = none → 10 ≤ b.cap) :
    generateFrame L b i = .ok { PalettedImage := frameOf L b, IndexFrame := i } := by
  unfold generateFrame frameOf
  cases hd : L.decode b.data with
  | none => simp [h hd]
  | some img => simp

theorem runWorkers_ok {Img Pal : Type} (L : Lib Img Pal) :
    ∀ (images : List ByteSlice) (k : Nat),
      (∀ b ∈ images, L.decode b.data = none → 10 ≤ b.cap) →
      ∃ results : List (FrameGenerated Pal), runWorkers L k images = .ok results ∧
        results.map (·.IndexFrame) = List.range' k images.length ∧
        results.map (·.PalettedImage) = images.map (frameOf L) := by
  intro images
  induction images with
  | nil => intro k _; exact ⟨[], by simp [runWorkers]⟩
  | cons b images ih =>
    intro k hsafe
    obtain ⟨rest, hrest, hidx, hpal⟩ :=
      ih (k + 1) (fun x hx => hsafe x (List.mem_cons_of_mem _ hx))
    refine ⟨{ PalettedImage := frameOf L b, IndexFrame := k } :: rest, ?_, ?_, ?_⟩
    · simp only [runWorkers, generateFrame_ok L b k (hsafe b (List.mem_cons_self _ _)), hrest]
    · simp only [List.map_cons, List.length_cons, hidx, List.range'_succ]
    · simp only [List.map_cons, hpal]

theorem filterMap_range_getElem? {α : Type} (l : List α) :
    (List.range l.length).filterMap (fun i => l[i]?) = l := by
  induction l using List.reverseRecOn with
  | nil => rfl
  | append_singleton l a ih =>
    rw [List.length_append, List.length_singleton, List.range_succ, List.filterMap_append]
    have h1 : (List.range l.length).filterMap (fun i => (l ++ [a])[i]?) =
        (List.range l.length).filterMap (fun i => l[i]?) := by
      apply List.filterMap_congr
      intro i hi
      rw [List.mem_range] at hi
      rw [List.getElem?_append_left hi]
    rw [h1, ih]
    simp

/-- The slice handed on by the receive loop: one entry for each image, in the
order of the images. -/
theorem frameArray_ok {Img Pal : Type} (L : Lib Img Pal) (order : List Nat)
    (images : List ByteSlice) (hperm : order.Perm (List.range images.length))
    (hsafe : ∀ b ∈ images, L.decode b.data = none → 10 ≤ b.cap) :
    frameArray L order images = .ok (images.map (frameOf L)) := by
  obtain ⟨results, hres, hidx, hpal⟩ := runWorkers_ok L images 0 hsafe
  have hlen : results.length = images.length := by
    have := congrArg List.length hpal
    simpa using this
  unfold frameArray
  rw [hres]
  simp only
  rw [← hlen, ← hpal]
  apply collectFrames_perm
  · rw [hidx, hlen, List.range_eq_range']
  · have h1 : (order.filterMap (fun i => results[i]?)).Perm
        ((List.range images.length).filterMap (fun i => results[i]?)) :=
      hperm.filterMap _
    rw [← hlen, filterMap_range_getElem?] at h1
    exact h1

/-- With every result received, `GenerateGif` goes on with the slice that has
one entry for each image. -/
theorem GenerateGif_ok {Img Pal : Type} (L : Lib Img Pal) (order : List Nat)
    (g : GIFGenerator Pal) (images : List ByteSlice) (delay : Int)
    (hperm : order.Perm (List.range images.length))
    (hsafe : ∀ b ∈ images, L.decode b.data = none → 10 ≤ b.cap) :
    GenerateGif L order g images delay = encodeFrames L g delay (images.map (frameOf L)) := by
  unfold GenerateGif
  rw [frameArray_ok L order images hperm hsafe]

theorem EncodeAll_nonempty {Img Pal : Type} (L : Lib Img Pal) (buf : List Nat)
    (frames : List (Option Pal)) (delay : Int) (hne : frames ≠ []) :
    EncodeAll L buf frames delay =
      (match gifEncodeAll L buf
          { Image := frames, Delay := List.replicate frames.length delay } with
        | .error e => .error e
        | .ok (some err, buf1) => .ok (.error err, buf1)
        | .ok (none, buf1) => .ok (.ok buf1, buf1)) := by
  unfold EncodeAll
  have h0 : frames.length ≠ 0 := by
    intro h; exact hne (List.length_eq_zero.mp h)
  simp only [h0, if_false, List.map_replicate]

/-- A nil first frame stops the program inside `gif.EncodeAll`. -/
theorem encodeFrames_nil_head {Img Pal : Type} (L : Lib Img Pal) (g : GIFGenerator Pal)
    (delay : Int) (rest : List (Option Pal)) :
    encodeFrames L g delay (none :: rest) =
      .error "panic: runtime error: invalid memory address or nil pointer dereference" := by
  unfold encodeFrames
  simp only
  rw [EncodeAll_nonempty L [] (none :: rest) _ (by simp)]
  rfl

/-- What the encoder receives from `GenerateGif`. -/
theorem encodeFrames_document {Img Pal : Type} (L : Lib Img Pal) (g : GIFGenerator Pal)
    (delay : Int) (frames : List (Option Pal)) (hne : frames ≠ []) :
    encodeFrames L g delay frames =
      (match gifEncodeAll L []
          { Image := frames,
            Delay := List.replicate frames.length (wrapInt (delay * frames.length)) } with
        | .error e => .error e
        | .ok (some err, _) => .ok (.error err, g)
        | .ok (none, buf1) => .ok (.ok buf1, { Delay := delay, Frames := frames })) := by
  unfold encodeFrames
  simp only
  rw [EncodeAll_nonempty L [] frames _ hne]
  generalize gifEncodeAll L []
    { Image := frames,
      Delay := List.replicate frames.length (wrapInt (delay * frames.length)) } = r
  rcases r with e | ⟨_ | err, b⟩ <;> rfl

theorem generateFrame_received {Img Pal : Type} (L : Lib Img Pal) (b : ByteSlice) (i : Nat)
    (r : FrameGenerated Pal) (h : generateFrame L b i = .ok r) :
    L.decode b.data = none → 10 ≤ b.cap := by
  intro hd
  unfold generateFrame at h
  rw [hd] at h
  simp only at h
  by_contra hc
  rw [if_neg hc] at h
  simp at h

/-! ## Lemmas: the pattern of `addTextAndEmoji` -/

theorem isReSpace_isSpace (c : Char) (h : isReSpace c = true) : isSpace c = true := by
  simp only [isReSpace, Bool.or_eq_true, beq_iff_eq] at h
  simp only [isSpace, Bool.or_eq_true, beq_iff_eq, Bool.and_eq_true, decide_eq_true_eq]
  omega

theorem takeWhile_eq_nil_of_free (So : Char → Bool) (s : Str) (h : ∀ c ∈ s, So c = false) :
    s.takeWhile So = [] := by
  cases s with
  | nil => rfl
  | cons c s => simp [List.takeWhile_cons, h c (List.mem_cons_self _ _)]

theorem matchGlyph_some (So : Char → Bool) (s g2 rest : Str)
    (h : matchGlyph So s = some (g2, rest)) : g2 = s.takeWhile So ∧ g2 ≠ [] := by
  unfold matchGlyph at h
  by_cases h0 : s.takeWhile So = []
  · simp [h0] at h
  · simp only [h0, if_false, Option.some.injEq, Prod.mk.injEq] at h
    exact ⟨h.1.symm, by rw [← h.1]; exact h0⟩

theorem matchGlyph_of_So (So : Char → Bool) (c : Char) (s : Str) (hc : So c = true) :
    matchGlyph So (c :: s) ≠ none := by
  simp [matchGlyph, List.takeWhile_cons, hc]

theorem matchGlyph_free (So : Char → Bool) (s : Str) (h : ∀ c ∈ s, So c = false) :
    matchGlyph So s = none := by
  simp [matchGlyph, takeWhile_eq_nil_of_free So s h]

theorem matchTail_some (So : Char → Bool) :
    ∀ (s g2 rest : Str), matchTail So s = some (g2, rest) →
      ∃ W s1, s = W ++ s1 ∧ (∀ c ∈ W, isReSpace c = true) ∧
        matchGlyph So s1 = some (g2, rest) := by
  intro s
  induction s with
  | nil =>
    intro g2 rest h
    exact ⟨[], [], rfl, by simp, h⟩
  | cons c s ih =>
    intro g2 rest h
    simp only [matchTail] at h
    by_cases hc : isReSpace c = true
    · simp only [hc, if_true] at h
      cases hm : matchTail So s with
      | none =>
        rw [hm] at h
        exact ⟨[], c :: s, rfl, by simp, h⟩
      | some m =>
        rw [hm] at h
        simp only [Option.some.injEq] at h
        subst h
        obtain ⟨W, s1, hs, hW, hg⟩ := ih g2 rest hm
        refine ⟨c :: W, s1, by rw [hs]; rfl, ?_, hg⟩
        intro d hd
        rcases List.mem_cons.mp hd with h1 | h1
        · rw [h1]; exact hc
        · exact hW d h1
    · simp only [hc] at h
      exact ⟨[], c :: s, rfl, by simp, h⟩

theorem matchTail_of_So (So : Char → Bool) (c : Char) (s : Str) (hc : So c = true) :
    matchTail So (c :: s) ≠ none := by
  simp only [matchTail]
  by_cases hr : isReSpace c = true
  · simp only [hr, if_true]
    cases matchTail So s with
    | none => exact matchGlyph_of_So So c s hc
    | some m => simp
  · simp only [hr]
    exact matchGlyph_of_So So c s hc

theorem matchTail_free (So : Char → Bool) :
    ∀ (s : Str), (∀ c ∈ s, So c = false) → matchTail So s = none := by
  intro s
  induction s with
  | nil => intro _; rfl
  | cons c s ih =>
    intro h
    have h1 := ih (fun d hd => h d (List.mem_cons_of_mem _ hd))
    have h2 := matchGlyph_free So (c :: s) h
    simp only [matchTail, h1, h2]
    split <;> rfl

theorem matchHere_some (So : Char → Bool) :
    ∀ (s acc g1 g2 rest : Str), matchHere So acc s = some (g1, g2, rest) →
      ∃ A s1, s = A ++ s1 ∧ (∀ c ∈ A, So c = false) ∧
        matchTail So s1 = some (g2, rest) := by
  intro s
  induction s with
  | nil => intro acc g1 g2 rest h; simp [matchHere] at h
  | cons c s ih =>
    intro acc g1 g2 rest h
    simp only [matchHere] at h
    cases hm : matchTail So (c :: s) with
    | some m =>
      rw [hm] at h
      simp only [Option.some.injEq, Prod.mk.injEq] at h
      refine ⟨[], c :: s, rfl, by simp, ?_⟩
      rw [← h.2.1, ← h.2.2]
      exact hm
    | none =>
      rw [hm] at h
      simp only at h
      by_cases hn : (c.toNat == 0x0A) = true
      · simp [hn] at h
      · simp only [hn] at h
        obtain ⟨A, s1, hs, hA, ht⟩ := ih (c :: acc) g1 g2 rest h
        refine ⟨c :: A, s1, by rw [hs]; rfl, ?_, ht⟩
        intro d hd
        rcases List.mem_cons.mp hd with h1 | h1
        · rw [h1]
          by_contra hcon
          exact matchTail_of_So So c s (by simpa using hcon) hm
        · exact hA d h1

theorem matchHere_of_So (So : Char → Bool) (c : Char) (s acc : Str) (hc : So c = true) :
    matchHere So acc (c :: s) ≠ none := by
  simp only [matchHere]
  cases hm : matchTail So (c :: s) with
  | none => exact absurd hm (matchTail_of_So So c s hc)
  | some m => simp

theorem matchHere_free (So : Char → Bool) :
    ∀ (s acc : Str), (∀ c ∈ s, So c = false) → matchHere So acc s = none := by
  intro s
  induction s with
  | nil => intro _ _; rfl
  | cons c s ih =>
    intro acc h
    simp only [matchHere, matchTail_free So (c :: s) h,
      ih (c :: acc) (fun d hd => h d (List.mem_cons_of_mem _ hd))]
    split <;> rfl

theorem FindStringSubmatch_some (So : Char → Bool) :
    ∀ (s g1 g2 : Str), FindStringSubmatch So s = some (g1, g2) →
      ∃ B s1 rest, s = B ++ s1 ∧ (∀ c ∈ B, So c = false) ∧
        matchHere So [] s1 = some (g1, g2, rest) := by
  intro s
  induction s with
  | nil => intro g1 g2 h; simp [FindStringSubmatch] at h
  | cons c s ih =>
    intro g1 g2 h
    simp only [FindStringSubmatch] at h
    cases hm : matchHere So [] (c :: s) with
    | some m =>
      rw [hm] at h
      simp only [Option.some.injEq, Prod.mk.injEq] at h
      refine ⟨[], c :: s, m.2.2, rfl, by simp, ?_⟩
      rw [← h.1, ← h.2]
      exact hm
    | none =>
      rw [hm] at h
      simp only at h
      obtain ⟨B, s1, rest, hs, hB, ht⟩ := ih g1 g2 h
      refine ⟨c :: B, s1, rest, by rw [hs]; rfl, ?_, ht⟩
      intro d hd
      rcases List.mem_cons.mp hd with h1 | h1
      · rw [h1]
        by_contra hcon
        exact matchHere_of_So So c s [] (by simpa using hcon) hm
      · exact hB d h1

theorem FindStringSubmatch_free (So : Char → Bool) :
    ∀ (s : Str), (∀ c ∈ s, So c = false) → FindStringSubmatch So s = none := by
  intro s
  induction s with
  | nil => intro _; rfl
  | cons c s ih =>
    intro h
    simp only [FindStringSubmatch, matchHere_free So (c :: s) [] h,
      ih (fun d hd => h d (List.mem_cons_of_mem _ hd))]

/-- Capture 2 of the pattern is the first glyph run of the text. -/
theorem FindStringSubmatch_head (So : Char → Bool) (hSo : SoNotSpace So) (text g1 g2 : Str)
    (h : FindStringSubmatch So text = some (g1, g2)) :
    (FindAllString So text).head? = some g2 := by
  obtain ⟨B, s1, rest, hs, hB, h1⟩ := FindStringSubmatch_some So text g1 g2 h
  obtain ⟨A, s2, hs1, hA, h2⟩ := matchHere_some So s1 [] g1 g2 rest h1
  obtain ⟨W, s3, hs2, hW, h3⟩ := matchTail_some So s2 g2 rest h2
  obtain ⟨hg, hne⟩ := matchGlyph_some So s3 g2 rest h3
  have hWf : ∀ c ∈ W, So c = false := by
    intro c hc
    by_contra hcon
    have := hSo c (by simpa using hcon)
    rw [isReSpace_isSpace c (hW c hc)] at this
    exact absurd this (by simp)
  unfold FindAllString
  rw [hs, hs1, hs2, soRuns_skip So B _ hB, soRuns_skip So A _ hA, soRuns_skip So W _ hWf]
  rcases s3 with _ | ⟨d, s4⟩
  · rw [hg] at hne; simp at hne
  · have hd : So d = true := by
      by_contra hcon
      rw [hg] at hne
      simp [List.takeWhile_cons, hcon] at hne
    rw [soRuns_start So d s4 hd, hg]
    simp [List.takeWhile_cons, hd]

theorem FindStringSubmatch_of_glyph (So : Char → Bool) (text : Str)
    (h : FindAllString So text ≠ []) : FindStringSubmatch So text ≠ none := by
  intro hnone
  apply h
  apply FindAllString_of_free
  induction text with
  | nil => simp
  | cons c s ih =>
    simp only [FindStringSubmatch] at hnone
    cases hm : matchHere So [] (c :: s) with
    | some m => rw [hm] at hnone; simp at hnone
    | none =>
      rw [hm] at hnone
      simp only at hnone
      intro d hd
      rcases List.mem_cons.mp hd with h1 | h1
      · rw [h1]
        by_contra hcon
        exact matchHere_of_So So c s [] (by simpa using hcon) hm
      · have : FindAllString So s ≠ [] → False := by
          intro h2
          exact h2 (FindAllString_of_free So s (ih h2 hnone))
        by_cases h3 : FindAllString So s = []
        · exact FindAllString_nil So s h3 d h1
        · exact absurd h3 this

theorem TrimSpace_run (So : Char → Bool) (hSo : SoNotSpace So) (g : Str)
    (hg : ∀ c ∈ g, So c = true) : TrimSpace g = g := by
  apply TrimSpace_of_noEdge
  constructor
  · intro c hc
    exact hSo c (hg c (List.mem_of_mem_head? hc))
  · intro c hc
    exact hSo c (hg c (List.mem_of_mem_getLast? hc))

theorem isDingbatSymbol_notSpace : SoNotSpace isDingbatSymbol := by
  intro c hc
  simp only [isDingbatSymbol, Bool.or_eq_true, Bool.and_eq_true, decide_eq_true_eq] at hc
  simp only [isSpace, Bool.or_eq_false_iff, Bool.and_eq_false_imp, beq_eq_false_iff_ne,
    decide_eq_true_eq, decide_eq_false_iff_not]
  omega

theorem NoEdgeSpace_iff (x : Str) :
    NoEdgeSpace x ↔
      (x.head?.all (fun c => !isSpace c) && x.getLast?.all (fun c => !isSpace c)) = true := by
  unfold NoEdgeSpace
  cases h1 : x.head? <;> cases h2 : x.getLast? <;> simp

/-! ## The claims -/

/-- C1: for every non-empty sequence of pairs (text, glyph) in which every text is
non-empty, has no leading or trailing white space and no Other-Symbol character,
and every glyph is one Other-Symbol character (glyphs may repeat), `FormatText`
applied to `text_1 ' ' glyph_1 ' ' ... text_n ' ' glyph_n` returns exactly the n
segments `text_i ++ glyph_i`, in source order. -/
theorem FormatText_caption (So : Char → Bool) (hSo : SoNotSpace So)
    (toks : List (Str × Char)) (hne : toks ≠ []) (hv : ∀ p ∈ toks, ValidToken So p) :
    FormatText So (caption toks) = toks.map tokenString ∧
      (FormatText So (caption toks)).length = toks.length := by
  have h : FormatText So (caption toks) = toks.map tokenString := by
    unfold FormatText
    simp only
    rw [caption_eq_render, FindAllString_render So hSo toks hv]
    apply foldEmojis_tokens So hSo _ _ toks false hne hv
    · intro h hh
      rw [interior_open] at hh
      obtain ⟨p, hp, hph⟩ := List.mem_map.mp hh
      exact List.mem_map.mpr ⟨p, hp, by rw [hph]⟩
    · intro e he
      obtain ⟨p, hp, hpe⟩ := List.mem_map.mp he
      exact ⟨p.2, hpe.symm, (hv p hp).2.2.2⟩
  exact ⟨h, by rw [h, List.length_map]⟩

/-- C1 at the caption "A ✅ B ❌": the segments are "A✅" and "B❌". -/
theorem FormatText_caption_example :
    SoNotSpace isDingbatSymbol ∧
      [("A".toList, '✅'), ("B".toList, '❌')] ≠ [] ∧
      (∀ p ∈ [("A".toList, '✅'), ("B".toList, '❌')], ValidToken isDingbatSymbol p) ∧
      caption [("A".toList, '✅'), ("B".toList, '❌')] = "A ✅ B ❌".toList ∧
      FormatText isDingbatSymbol "A ✅ B ❌".toList = ["A✅".toList, "B❌".toList] := by
  have hv : ∀ p ∈ [("A".toList, '✅'), ("B".toList, '❌')], ValidToken isDingbatSymbol p := by
    intro p hp
    simp only [List.mem_cons, List.mem_singleton, List.not_mem_nil, or_false] at hp
    rcases hp with rfl | rfl
    · exact ⟨by decide, (NoEdgeSpace_iff _).mpr (by decide), by decide, by decide⟩
    · exact ⟨by decide, (NoEdgeSpace_iff _).mpr (by decide), by decide, by decide⟩
  exact ⟨isDingbatSymbol_notSpace, by decide, hv, by decide,
    (FormatText_caption isDingbatSymbol isDingbatSymbol_notSpace
      [("A".toList, '✅'), ("B".toList, '❌')] (by decide) hv).1⟩

/-- C2: when every worker of `GenerateGif` reports its result (the N results carry
the indices 0..N-1) and the results arrive in any order, the frame slice built by
`GenerateGif` has length N, its entry i is the raster (present or nil) of the
result that carries index i, and `GenerateGif` goes on with that slice; the slice
is the same for every order of arrival. -/
theorem GenerateGif_frames_by_index {Img Pal : Type} (L : Lib Img Pal) (order : List Nat)
    (g : GIFGenerator Pal) (images : List ByteSlice) (delay : Int)
    (hrecv : ∀ (i : Nat) (hi : i < images.length),
      ∃ r : FrameGenerated Pal, generateFrame L images[i] i = .ok r)
    (hperm : order.Perm (List.range images.length)) :
    ∃ frames : List (Option Pal),
      frameArray L order images = .ok frames ∧
      frames.length = images.length ∧
      (∀ (i : Nat) (hi : i < images.length), ∃ r : FrameGenerated Pal,
        generateFrame L images[i] i = .ok r ∧ r.IndexFrame = i ∧
          frames[i]? = some r.PalettedImage) ∧
      GenerateGif L order g images delay = encodeFrames L g delay frames ∧
      ∀ order2 : List Nat, order2.Perm (List.range images.length) →
        frameArray L order2 images = .ok frames ∧
          GenerateGif L order2 g images delay = GenerateGif L order g images delay := by
  have hsafe : ∀ b ∈ images, L.decode b.data = none → 10 ≤ b.cap := by
    intro b hb
    obtain ⟨i, hi, hbi⟩ := List.getElem_of_mem hb
    obtain ⟨r, hr⟩ := hrecv i hi
    rw [hbi] at hr
    exact generateFrame_received L b i r hr
  refine ⟨images.map (frameOf L), frameArray_ok L order images hperm hsafe, by simp, ?_,
    GenerateGif_ok L order g images delay hperm hsafe, ?_⟩
  · intro i hi
    refine ⟨{ PalettedImage := frameOf L images[i], IndexFrame := i }, ?_, rfl, ?_⟩
    · exact generateFrame_ok L images[i] i (hsafe _ (List.getElem_mem hi))
    · simp [hi]
  · intro order2 h2
    refine ⟨frameArray_ok L order2 images h2 hsafe, ?_⟩
    rw [GenerateGif_ok L order2 g images delay h2 hsafe,
      GenerateGif_ok L order g images delay hperm hsafe]

/-- C2 for the images `pngA`, ten zero bytes (which do not decode) and `pngB`,
whose results arrive in the order 2, 0, 1: the slice is [1x1 raster, nil, 2x1
raster], as it is for the order 0, 1, 2. -/
theorem GenerateGif_frames_by_index_example :
    List.Perm [2, 0, 1] (List.range 3) ∧
      frameArray pngLib [2, 0, 1]
        [ByteSlice.mk pngA 0, ByteSlice.mk [0, 0, 0, 0, 0, 0, 0, 0, 0, 0] 0, ByteSlice.mk pngB 0]
        = .ok [some (1, 1), none, some (2, 1)] ∧
      frameArray pngLib [0, 1, 2]
        [ByteSlice.mk pngA 0, ByteSlice.mk [0, 0, 0, 0, 0, 0, 0, 0, 0, 0] 0, ByteSlice.mk pngB 0]
        = .ok [some (1, 1), none, some (2, 1)] ∧
      ∃ frames : List (Option (Nat × Nat)),
        frameArray pngLib [2, 0, 1]
          [ByteSlice.mk pngA 0, ByteSlice.mk [0, 0, 0, 0, 0, 0, 0, 0, 0, 0] 0,
            ByteSlice.mk pngB 0] = .ok frames ∧
        frames.length = 3 ∧
        GenerateGif pngLib [2, 0, 1] { Delay := 0, Frames := [] }
          [ByteSlice.mk pngA 0, ByteSlice.mk [0, 0, 0, 0, 0, 0, 0, 0, 0, 0] 0,
            ByteSlice.mk pngB 0] 50 = encodeFrames pngLib { Delay := 0, Frames := [] } 50 frames := by
  obtain ⟨frames, h1, h2, -, h4, -⟩ :=
    GenerateGif_frames_by_index pngLib [2, 0, 1] { Delay := 0, Frames := [] }
      [ByteSlice.mk pngA 0, ByteSlice.mk [0, 0, 0, 0, 0, 0, 0, 0, 0, 0] 0, ByteSlice.mk pngB 0]
      50
      (by
        intro i hi
        match i, hi with
        | 0, _ => exact ⟨_, rfl⟩
        | 1, _ => exact ⟨_, rfl⟩
        | 2, _ => exact ⟨_, rfl⟩)
      (by decide)
  exact ⟨by decide, rfl, rfl, frames, h1, h2, h4⟩

/-- C3: a byte slice that fails to decode and has a capacity below 10 makes
`generateFrame` panic at `imgByte[:10]`; nothing is sent on the channel. -/
theorem generateFrame_short_slice_panics {Img Pal : Type} (L : Lib Img Pal) (imgByte : ByteSlice)
    (index : Nat) (hdec : L.decode imgByte.data = none) (hcap : imgByte.cap < 10) :
    (generateFrame L imgByte index : Except String (FrameGenerated Pal)) =
      .error "panic: runtime error: slice bounds out of range" := by
  unfold generateFrame
  rw [hdec]
  simp only
  rw [if_neg (by omega)]

/-- C3 at the empty byte slice. -/
theorem generateFrame_empty_slice_panics :
    pngLib.decode (ByteSlice.mk [] 0).data = none ∧ (ByteSlice.mk [] 0).cap < 10 ∧
      generateFrame pngLib (ByteSlice.mk [] 0) 0 =
        .error "panic: runtime error: slice bounds out of range" :=
  ⟨by decide, by decide,
    generateFrame_short_slice_panics pngLib (ByteSlice.mk [] 0) 0 (by decide) (by decide)⟩

/-- C4: when an image fails to decode (and its worker does not panic), the frame
sequence that `GenerateGif` hands to `EncodeAll` is not hole-free: it has a nil
entry for that image.  When the first image is the one that fails, `gif.EncodeAll`
dereferences the nil frame and the program panics. -/
theorem GenerateGif_hands_nil_frame {Img Pal : Type} (L : Lib Img Pal) (order : List Nat)
    (g : GIFGenerator Pal) (images : List ByteSlice) (delay : Int)
    (hperm : order.Perm (List.range images.length))
    (hsafe : ∀ b ∈ images, L.decode b.data = none → 10 ≤ b.cap)
    (hfail : ∃ b ∈ images, L.decode b.data = none) :
    ∃ frames : List (Option Pal),
      frameArray L order images = .ok frames ∧
      none ∈ frames ∧
      GenerateGif L order g images delay = encodeFrames L g delay frames ∧
      ((∃ b rest, images = b :: rest ∧ L.decode b.data = none) →
        GenerateGif L order g images delay =
          .error "panic: runtime error: invalid memory address or nil pointer dereference") := by
  have hnone : ∀ b : ByteSlice, L.decode b.data = none → frameOf L b = none := by
    intro b hb
    unfold frameOf
    rw [hb]
    rfl
  refine ⟨images.map (frameOf L), frameArray_ok L order images hperm hsafe, ?_,
    GenerateGif_ok L order g images delay hperm hsafe, ?_⟩
  · obtain ⟨b, hb, hd⟩ := hfail
    exact List.mem_map.mpr ⟨b, hb, hnone b hd⟩
  · rintro ⟨b, rest, himg, hd⟩
    rw [GenerateGif_ok L order g images delay hperm hsafe, himg, List.map_cons, hnone b hd]
    exact encodeFrames_nil_head L g delay _

/-- C4 for one image of ten zero bytes, which does not decode: the frame sequence
handed to `EncodeAll` is `[nil]` and the program panics in `gif.EncodeAll`. -/
theorem GenerateGif_hands_nil_frame_example :
    List.Perm [0] (List.range 1) ∧
      pngLib.decode [0, 0, 0, 0, 0, 0, 0, 0, 0, 0] = none ∧
      frameArray pngLib [0] [ByteSlice.mk [0, 0, 0, 0, 0, 0, 0, 0, 0, 0] 0] = .ok [none] ∧
      GenerateGif pngLib [0] { Delay := 0, Frames := [] }
        [ByteSlice.mk [0, 0, 0, 0, 0, 0, 0, 0, 0, 0] 0] 50 =
        .error "panic: runtime error: invalid memory address or nil pointer dereference" := by
  obtain ⟨frames, -, -, -, h4⟩ :=
    GenerateGif_hands_nil_frame pngLib [0] { Delay := 0, Frames := [] }
      [ByteSlice.mk [0, 0, 0, 0, 0, 0, 0, 0, 0, 0] 0] 50 (by decide)
      (by
        intro b hb _
        simp only [List.mem_singleton] at hb
        subst hb
        decide)
      ⟨_, List.mem_singleton.mpr rfl, by decide⟩
  exact ⟨by decide, by decide, rfl, h4 ⟨_, _, rfl, by decide⟩⟩

/-- C5: for N >= 1 images, every frame of the document that `GenerateGif` passes to
`gif.EncodeAll` has the delay `delay * N` (as a Go int), not `delay`: `EncodeAll` is
called with `totalDelay` and writes it into every entry of `Delay`. -/
theorem GenerateGif_frame_delay {Img Pal : Type} (L : Lib Img Pal) (order : List Nat)
    (g : GIFGenerator Pal) (images : List ByteSlice) (delay : Int)
    (hperm : order.Perm (List.range images.length))
    (hsafe : ∀ b ∈ images, L.decode b.data = none → 10 ≤ b.cap) (hne : images ≠ []) :
    GenerateGif L order g images delay =
      (match gifEncodeAll L []
          { Image := images.map (frameOf L),
            Delay := List.replicate images.length (wrapInt (delay * images.length)) } with
        | .error e => .error e
        | .ok (some err, _) => .ok (.error err, g)
        | .ok (none, buf1) =>
          .ok (.ok buf1, { Delay := delay, Frames := images.map (frameOf L) })) := by
  rw [GenerateGif_ok L order g images delay hperm hsafe,
    encodeFrames_document L g delay (images.map (frameOf L)) (by simpa using hne)]
  simp only [List.length_map]

/-- C5 for the image `pngA` twice and the delay 50: `gif.EncodeAll` receives two
frames with the delay 100 each, and the generator records the delay 50. -/
theorem GenerateGif_frame_delay_example :
    List.Perm [0, 1] (List.range 2) ∧
      List.replicate 2 (wrapInt (50 * 2)) = [100, 100] ∧
      GenerateGif pngLib [0, 1] { Delay := 0, Frames := [] }
        [ByteSlice.mk pngA 0, ByteSlice.mk pngA 0] 50 =
        (match gifEncodeAll pngLib []
            { Image := [some (1, 1), some (1, 1)], Delay := [100, 100] } with
          | .error e => .error e
          | .ok (some err, _) => .ok (.error err, { Delay := 0, Frames := [] })
          | .ok (none, buf1) =>
            .ok (.ok buf1, { Delay := 50, Frames := [some (1, 1), some (1, 1)] })) :=
  ⟨by decide, by decide,
    (GenerateGif_frame_delay pngLib [0, 1] { Delay := 0, Frames := [] }
      [ByteSlice.mk pngA 0, ByteSlice.mk pngA 0] 50 (by decide)
      (by
        intro b hb hd
        simp only [List.mem_cons, List.mem_singleton, List.not_mem_nil, or_false] at hb
        rcases hb with rfl | rfl
        · exact absurd hd (by decide)
        · exact absurd hd (by decide))
      (by simp)).trans rfl⟩

/-- C6: for every buffer and every delay, `EncodeAll` with an empty frame list
returns the error "no frames to encode" and no bytes, and the buffer is unchanged. -/
theorem EncodeAll_empty {Img Pal : Type} (L : Lib Img Pal) (buf : List Nat) (delay : Int) :
    EncodeAll L buf ([] : List (Option Pal)) delay =
      .ok (.error "no frames to encode", buf) := by
  rfl

/-- C7: `addTextAndEmoji` returns an image only when the caption has a glyph and
its first glyph run is a key of the icon map ("✅" or "❌"); a caption without
glyph, or one whose glyph is not a key, ends in a failure (`log.Fatalf`). -/
theorem addTextAndEmoji_glyph {Img : Type} (So : Char → Bool) (hSo : SoNotSpace So)
    (G : Gfx Img) (im : Img) (text : Str) :
    (∀ out, addTextAndEmoji So G im text = .ok out →
        ∃ glyph, (FindAllString So text).head? = some glyph ∧
          (glyph = ['✅'] ∨ glyph = ['❌'])) ∧
      ((∀ c ∈ text, So c = false) → ∃ msg, addTextAndEmoji So G im text = .error msg) ∧
      (∀ glyph, (FindAllString So text).head? = some glyph → glyph ≠ ['✅'] →
        glyph ≠ ['❌'] → ∃ msg, addTextAndEmoji So G im text = .error msg) := by
  have key : ∀ g1 g2, FindStringSubmatch So text = some (g1, g2) →
      (FindAllString So text).head? = some g2 ∧ TrimSpace g2 = g2 := by
    intro g1 g2 h
    have hh := FindStringSubmatch_head So hSo text g1 g2 h
    refine ⟨hh, TrimSpace_run So hSo g2 ?_⟩
    have hmem : g2 ∈ FindAllString So text := List.mem_of_mem_head? hh
    exact (FindAllString_spec So text g2 hmem).2
  refine ⟨?_, ?_, ?_⟩
  · intro out hout
    unfold addTextAndEmoji at hout
    cases hm : FindStringSubmatch So text with
    | none => rw [hm] at hout; simp at hout
    | some m =>
      obtain ⟨hhead, htrim⟩ := key m.1 m.2 hm
      rw [hm] at hout
      simp only [htrim] at hout
      refine ⟨m.2, hhead, ?_⟩
      by_cases h1 : m.2 = ['✅']
      · exact Or.inl h1
      · by_cases h2 : m.2 = ['❌']
        · exact Or.inr h2
        · simp [emojiMap, h1, h2] at hout
  · intro hfree
    unfold addTextAndEmoji
    rw [FindStringSubmatch_free So text hfree]
    exact ⟨_, rfl⟩
  · intro glyph hhead h1 h2
    have hne : FindAllString So text ≠ [] := by
      intro h0; rw [h0] at hhead; simp at hhead
    unfold addTextAndEmoji
    cases hm : FindStringSubmatch So text with
    | none => exact absurd hm (FindStringSubmatch_of_glyph So text hne)
    | some m =>
      obtain ⟨hhead2, htrim⟩ := key m.1 m.2 hm
      rw [hhead] at hhead2
      simp only [Option.some.injEq] at hhead2
      subst hhead2
      simp only [htrim]
      simp only [emojiMap, h1, h2, if_false]
      exact ⟨_, rfl⟩

/-- C7 at the captions "A ✅" (an image is returned) and "A" (failure). -/
theorem addTextAndEmoji_glyph_example :
    SoNotSpace isDingbatSymbol ∧
      addTextAndEmoji isDingbatSymbol
        { LoadImage := fun _ => some 1, compose := fun im _ icon => im + icon } 5 "A ✅".toList =
        .ok 6 ∧
      ∃ msg, addTextAndEmoji isDingbatSymbol
        { LoadImage := fun _ => some 1, compose := fun im _ icon => im + icon } 5 "A".toList =
        .error msg :=
  ⟨isDingbatSymbol_notSpace, rfl,
    (addTextAndEmoji_glyph isDingbatSymbol isDingbatSymbol_notSpace
      { LoadImage := fun _ => some 1, compose := fun im _ icon => im + icon } 5
      "A".toList).2.1 (by decide)⟩

/-- C8: on the input " A ", which has no glyph, `FormatText` returns the input
with its white space, not the trimmed string "A". -/
theorem FormatText_without_glyph_untrimmed :
    FormatText isDingbatSymbol " A ".toList = [" A ".toList] ∧
      TrimSpace " A ".toList = "A".toList ∧
      FormatText isDingbatSymbol " A ".toList ≠ [TrimSpace " A ".toList] := by
  decide

/-- C9 as stated fails: the glyph list of "❌ ❌✅ ✅✅" has no repeated entry,
`FormatText` returns ["✅✅✅"], and folding again gives ["✅"]. -/
theorem refold_changes_segments :
    (FindAllString isDingbatSymbol "❌ ❌✅ ✅✅".toList).Nodup ∧
      FormatText isDingbatSymbol "❌ ❌✅ ✅✅".toList = ["✅✅✅".toList] ∧
      foldEmojis (FindAllString isDingbatSymbol "❌ ❌✅ ✅✅".toList)
        (FormatText isDingbatSymbol "❌ ❌✅ ✅✅".toList) = ["✅".toList] ∧
      foldEmojis (FindAllString isDingbatSymbol "❌ ❌✅ ✅✅".toList)
        (FormatText isDingbatSymbol "❌ ❌✅ ✅✅".toList) ≠
        FormatText isDingbatSymbol "❌ ❌✅ ✅✅".toList := by
  decide

/-- C9, as the code has it: when the runs of the glyph list are pairwise disjoint
(no Other-Symbol character occurs in two of them), and in particular when no
Other-Symbol character occurs twice in the input, folding again over the glyph
list, starting from the segments that `FormatText` returned, gives the same
segments. -/
theorem FormatText_refold (So : Char → Bool) (hSo : SoNotSpace So) (text : Str)
    (hD : (FindAllString So text).Pairwise List.Disjoint ∨ (text.filter So).Nodup) :
    foldEmojis (FindAllString So text) (FormatText So text) = FormatText So text := by
  rcases hD with h | h
  · exact refold_fixed So hSo text h
  · exact refold_fixed So hSo text (FindAllString_pairwise So _ text (le_refl _) h)

/-- C9, as the code has it, at the caption "A ✅✅ B ❌": its runs "✅✅" and "❌"
are disjoint, and folding again returns the segments "A✅✅" and "B❌" once more. -/
theorem FormatText_refold_example :
    SoNotSpace isDingbatSymbol ∧
      FindAllString isDingbatSymbol "A ✅✅ B ❌".toList = ["✅✅".toList, "❌".toList] ∧
      FormatText isDingbatSymbol "A ✅✅ B ❌".toList = ["A✅✅".toList, "B❌".toList] ∧
      foldEmojis (FindAllString isDingbatSymbol "A ✅✅ B ❌".toList)
        (FormatText isDingbatSymbol "A ✅✅ B ❌".toList) =
        FormatText isDingbatSymbol "A ✅✅ B ❌".toList := by
  have hruns : FindAllString isDingbatSymbol "A ✅✅ B ❌".toList =
      ["✅✅".toList, "❌".toList] := by decide
  have hD : (FindAllString isDingbatSymbol "A ✅✅ B ❌".toList).Pairwise List.Disjoint := by
    rw [hruns]
    simp
  exact ⟨isDingbatSymbol_notSpace, hruns, by decide,
    FormatText_refold isDingbatSymbol isDingbatSymbol_notSpace "A ✅✅ B ❌".toList
      (Or.inl hD)⟩

/-- C10: every segment that `FormatText` returns, except the last one, ends with
an Other-Symbol character. -/
theorem FormatText_segments_end_with_glyph (So : Char → Bool) (hSo : SoNotSpace So)
    (text : Str) :
    ∀ seg ∈ (FormatText So text).dropLast, ∃ c, seg.getLast? = some c ∧ So c = true := by
  intro seg hseg
  unfold FormatText at hseg
  exact foldEmojis_inv So hSo (FindAllString So text)
    (fun e he => FindAllString_spec So text e he) [text] (by simp) seg hseg

/-- C10 at the caption "A ✅ B ❌ C", whose last segment "C" has no glyph. -/
theorem FormatText_segments_end_with_glyph_example :
    SoNotSpace isDingbatSymbol ∧
      FormatText isDingbatSymbol "A ✅ B ❌ C".toList =
        ["A✅".toList, "B❌".toList, "C".toList] ∧
      ∀ seg ∈ (FormatText isDingbatSymbol "A ✅ B ❌ C".toList).dropLast,
        ∃ c, seg.getLast? = some c ∧ isDingbatSymbol c = true :=
  ⟨isDingbatSymbol_notSpace, by decide,
    FormatText_segments_end_with_glyph isDingbatSymbol isDingbatSymbol_notSpace
      "A ✅ B ❌ C".toList⟩

end GifText
